import Mathlib

/-!
Shallow embedding of the imagepile block-deduplication store (imagepile.c).

Blocks are lists of byte values (`Nat`), the Pool file is a list of blocks,
the Index file is a list of 64-bit fingerprints (`Nat`), and the in-memory
lookup is the array of 65536 buckets of chained fixed-capacity leaves from
the C source.  The block hash function (jody_block_hash, external to this
repository) is a parameter `H : Block → Nat` throughout.

C stdio semantics used by the embedding: `fread` returns the number of
complete items read, and `feof` becomes true exactly when a read attempted
to go past end-of-file; a read that is satisfied exactly does not set the
end-of-file indicator.
-/

namespace Imagepile

/-- B_SIZE from imagepile.h: universal block size. -/
def B_SIZE : Nat := 4096

/-- HASH_ALLOC_SIZE from imagepile.h: entries per hash leaf. -/
def HASH_ALLOC_SIZE : Nat := 64

/-- HDR_SIZE from imagepile.h: descriptor header bytes. -/
def HDR_SIZE : Nat := 12

abbrev Block := List Nat

abbrev Hash := Nat

/-- HASH_HEAD from imagepile.h: the top 16 bits of a 64-bit fingerprint,
used as the bucket key. -/
def HASH_HEAD (h : Hash) : Nat := (h >>> 48) % 65536

/-- struct hash_node: one (fingerprint, pool ordinal) entry. -/
structure hash_node where
  hash : Hash
  offset : Nat
deriving DecidableEq, Repr

/-- struct hash_leaf: up to HASH_ALLOC_SIZE nodes in insertion order
(the `next` pointer is the tail of the enclosing list of leaves). -/
structure hash_leaf where
  node : List hash_node
deriving DecidableEq, Repr

/-- One bucket: the chain of leaves hanging off hash_top[k]. -/
abbrev Bucket := List hash_leaf

/-- All entries of a bucket in insertion order, within and across leaves. -/
def flattenLeaves (ls : Bucket) : List hash_node :=
  (ls.map hash_leaf.node).flatten

/-- The in-memory insert of index_hash: skip full leaves, append the node to
the first non-full leaf, allocating a fresh leaf at the tail if all are full. -/
def insert_leaves : Bucket → hash_node → Bucket
  | [], n => [⟨[n]⟩]
  | l :: ls, n =>
    if l.node.length = HASH_ALLOC_SIZE then
      match ls with
      | [] => [l, ⟨[n]⟩]
      | _ :: _ => l :: insert_leaves ls n
    else ⟨l.node ++ [n]⟩ :: ls

/-- Scan a node list for the first entry with the given fingerprint,
returning its position and stored ordinal. -/
def scanList (h : Hash) : List hash_node → Option (Nat × Nat)
  | [] => none
  | n :: ns =>
    if n.hash = h then some (0, n.offset)
    else (scanList h ns).map (fun p => (p.1 + 1, p.2))

/-- Scan one leaf starting at relative offset `rel`. -/
def scanLeafFrom (h : Hash) (nodes : List hash_node) (rel : Nat) : Option (Nat × Nat) :=
  (scanList h (nodes.drop rel)).map (fun p => (rel + p.1, p.2))

/-- The static cursor of find_hash_match: the current leaf together with the
rest of its chain, and the relative offset inside that leaf. -/
structure FindCursor where
  leaves : Bucket
  rel : Nat
deriving DecidableEq, Repr

/-- The scan loop of find_hash_match: walk the chain from the given position
until a node with the given fingerprint is found; the returned cursor points
at the matching node, so that a later resume continues just past it. -/
def scanFrom (h : Hash) : Bucket → Nat → Option (Nat × FindCursor)
  | [], _ => none
  | l :: ls, rel =>
    match scanLeafFrom h l.node rel with
    | some (j, off) => some (off, ⟨l :: ls, j⟩)
    | none => scanFrom h ls 0

/-- find_hash_match: `none` as cursor plays the role of `reset || dirty`
(start at the head of the bucket); `some c` resumes just past the node that
cursor `c` points at, exactly as the static-variable resume branch does. -/
def find_hash_match (top : Nat → Bucket) (h : Hash) : Option FindCursor → Option (Nat × FindCursor)
  | none => scanFrom h (top (HASH_HEAD h)) 0
  | some c =>
    match c.leaves with
    | [] => none
    | l :: ls =>
      if c.rel < l.node.length then scanFrom h (l :: ls) (c.rel + 1)
      else
        match ls with
        | [] => none
        | _ :: _ => scanFrom h ls 0

/-- All ordinals whose fingerprint equals `h`, from position (`ls`, `rel`) on,
in insertion order within and across leaves. -/
def matchesFrom (h : Hash) : Bucket → Nat → List Nat
  | [], _ => []
  | l :: ls, rel =>
    (((l.node.drop rel).filter (fun n => n.hash == h)).map hash_node.offset)
      ++ matchesFrom h ls 0

/-- The matches strictly after the node a cursor points at. -/
def cursorMatches (h : Hash) (c : FindCursor) : List Nat :=
  matchesFrom h c.leaves (c.rel + 1)

/-- Shape invariant of a bucket chain as index_hash produces it: every leaf
before the last is full, and no leaf exceeds its capacity. -/
inductive LeavesWF : Bucket → Prop
  | nil : LeavesWF []
  | single (l : hash_leaf) (hle : l.node.length ≤ HASH_ALLOC_SIZE) : LeavesWF [l]
  | cons (l : hash_leaf) (ls : Bucket) (hfull : l.node.length = HASH_ALLOC_SIZE)
      (hne : ls ≠ []) (t : LeavesWF ls) : LeavesWF (l :: ls)

/-- Pair each element with its position, starting at `i`. -/
def withIdx {α : Type} : Nat → List α → List (Nat × α)
  | _, [] => []
  | i, a :: l => (i, a) :: withIdx (i + 1) l

/-- Position of the first occurrence of a block in a list of blocks. -/
def firstIdx (b : Block) : List Block → Option Nat
  | [] => none
  | a :: l => if a = b then some 0 else (firstIdx b l).map (· + 1)

/-- The whole mutable state of one run: the in-memory bucket array hash_top,
the Pool file (files->db) as a list of blocks, and the Index file
(files->hashindex) as a list of fingerprint records. -/
structure PileState where
  hash_top : Nat → Bucket
  pool : List Block
  hashindex : List Hash

/-- Point update of the bucket array. -/
def updBucket (t : Nat → Bucket) (k : Nat) (v : Bucket) : Nat → Bucket :=
  fun i => if i = k then v else t i

/-- State after main's initialization: 65536 buckets, each one empty leaf,
and empty Pool and Index files. -/
def initState : PileState := ⟨fun _ => [⟨[]⟩], [], []⟩

/-- read_db_block: seek to ordinal·B_SIZE and read one block; `none` is the
fatal short-read path (the ordinal is past the end of the Pool). -/
def read_db_block (pool : List Block) (offset : Nat) : Option Block :=
  pool[offset]?

/-- compare_blocks: byte-exact comparison of an input block against the pool
block at the given ordinal (0 in the C source becomes `true` here). -/
def compare_blocks (blk : Block) (offset : Nat) (pool : List Block) : Option Bool :=
  (read_db_block pool offset).map (fun b => blk == b)

/-- add_db_block: append a block at end-of-file and return the ordinal
computed from the pre-write size divided by B_SIZE. -/
def add_db_block (blk : Block) (st : PileState) : Nat × PileState :=
  (st.pool.length, { st with pool := st.pool ++ [blk] })

/-- index_hash: insert (fingerprint, ordinal) into the bucket selected by
HASH_HEAD, and append the fingerprint to the Index file when `wr` is true. -/
def index_hash (h : Hash) (offset : Nat) (wr : Bool) (st : PileState) : PileState :=
  { st with
    hash_top := updBucket st.hash_top (HASH_HEAD h)
      (insert_leaves (st.hash_top (HASH_HEAD h)) ⟨h, offset⟩)
    hashindex := cond wr (st.hashindex ++ [h]) st.hashindex }

/-- The full candidate enumeration that successive resumed find_hash_match
calls produce for one fingerprint (see the scanFrom correspondence lemmas). -/
def candidates (top : Nat → Bucket) (h : Hash) : List Nat :=
  matchesFrom h (top (HASH_HEAD h)) 0

/-- The candidate loop of get_block_offset: byte-compare each candidate in
order; `some (some o)` is the first verified match, `some none` is candidate
exhaustion, `none` is a fatal database read error. -/
def firstByteMatch (blk : Block) (pool : List Block) : List Nat → Option (Option Nat)
  | [] => some none
  | o :: os =>
    match compare_blocks blk o pool with
    | none => none
    | some true => some (some o)
    | some false => firstByteMatch blk pool os

/-- get_block_offset: hash the block, walk the candidates with byte
verification, and on exhaustion append the block to the Pool and its
fingerprint to the Index. -/
def get_block_offset (H : Block → Nat) (blk : Block) (st : PileState) : Option (Nat × PileState) :=
  match firstByteMatch blk st.pool (candidates st.hash_top (H blk)) with
  | none => none
  | some (some o) => some (o, st)
  | some none =>
    let r := add_db_block blk st
    some (r.1, index_hash (H blk) r.1 true r.2)

/-- Specification-level dedup step: reuse the first occurrence in the pool,
else append. -/
def dstep (pool : List Block) (b : Block) : Nat × List Block :=
  match firstIdx b pool with
  | some i => (i, pool)
  | none => (pool.length, pool ++ [b])

/-- Ordinals emitted by folding the dedup step over a block sequence. -/
def dfoldOrds (pool : List Block) : List Block → List Nat
  | [] => []
  | b :: bs => (dstep pool b).1 :: dfoldOrds (dstep pool b).2 bs

/-- Pool contents after folding the dedup step over a block sequence. -/
def dfoldPool (pool : List Block) : List Block → List Block
  | [] => pool
  | b :: bs => dfoldPool (dstep pool b).2 bs

/-- The nodes that bucket `k` must hold when the Index file holds `idx`:
the records whose fingerprint has head `k`, paired with their ordinals, in
file order. -/
def bucketSpec (idx : List Hash) (k : Nat) : List hash_node :=
  ((withIdx 0 idx).filter (fun p => HASH_HEAD p.2 == k)).map (fun p => ⟨p.2, p.1⟩)

/-- Well-formedness tying the in-memory lookup to the two files: the Index
mirrors the Pool fingerprint-for-block (I1), and every bucket holds exactly
its Index records in insertion order inside a well-shaped leaf chain. -/
structure Inv (H : Block → Nat) (st : PileState) : Prop where
  lock : st.hashindex = st.pool.map H
  buckets : ∀ k, flattenLeaves (st.hash_top k) = bucketSpec st.hashindex k
  wf : ∀ k, LeavesWF (st.hash_top k)

/-- The image descriptor as ingest writes it: the 12-byte header fields
(after the IPIL signature) and the packed ordinal stream. -/
structure Descriptor where
  head_skip : Nat
  tail_bytes : Nat
  ords : List Nat
deriving DecidableEq, Repr

/-- The read/dedup/emit loop of input_image.  `rem` is the unread input,
`skip` the live start_offset.  Each iteration reads `B_SIZE - skip` bytes
when `skip > 0` and `B_SIZE` otherwise; a short read at end-of-input zero-pads
the buffer, resolves the block, emits its ordinal and returns the actual
count as the rewritten tail_bytes; a short read that is not at end-of-input
is the head-truncation case when `skip > 0` and fatal otherwise.  The fuel
argument only bounds the recursion; `rem.length + 1` always suffices. -/
def ingestLoopF (H : Block → Nat) : Nat → List Nat → Nat → PileState → Option (List Nat × Nat × PileState)
  | 0, _, _, _ => none
  | fuel + 1, rem, skip, st =>
    let req := if 0 < skip then B_SIZE - skip else B_SIZE
    let cnt := min req rem.length
    if cnt = 0 then some ([], B_SIZE, st)
    else
      let blk := rem.take cnt ++ List.replicate (B_SIZE - cnt) 0
      if cnt < B_SIZE ∧ rem.length < req then
        match get_block_offset H blk st with
        | none => none
        | some (o, st') => some ([o], cnt, st')
      else if cnt < B_SIZE ∧ skip = 0 then none
      else
        match get_block_offset H blk st with
        | none => none
        | some (o, st') =>
          if rem.length < req then some ([o], B_SIZE, st')
          else
            match ingestLoopF H fuel (rem.drop cnt) 0 st' with
            | none => none
            | some (ords, tail, st'') => some (o :: ords, tail, st'')

/-- input_image: write the header (head_skip as given, tail_bytes placeholder
B_SIZE), run the loop, and return the final descriptor and state. -/
def input_image (H : Block → Nat) (X : List Nat) (start_offset : Nat) (st : PileState) :
    Option (Descriptor × PileState) :=
  (ingestLoopF H (X.length + 1) X start_offset st).map
    (fun r => (⟨start_offset, r.2.1, r.1⟩, r.2.2))

/-- The padded block sequence that the ingest loop reads from an input. -/
def inputBlocksF : Nat → List Nat → Nat → List Block
  | 0, _, _ => []
  | fuel + 1, rem, skip =>
    let req := if 0 < skip then B_SIZE - skip else B_SIZE
    let cnt := min req rem.length
    if cnt = 0 then []
    else
      let blk := rem.take cnt ++ List.replicate (B_SIZE - cnt) 0
      if rem.length < req then [blk]
      else blk :: inputBlocksF fuel (rem.drop cnt) 0

/-- The final tail_bytes value of a descriptor: the placeholder B_SIZE unless
the last read was short at end-of-input, in which case its actual count. -/
def tailSpecF : Nat → List Nat → Nat → Nat
  | 0, _, _ => B_SIZE
  | fuel + 1, rem, skip =>
    let req := if 0 < skip then B_SIZE - skip else B_SIZE
    let cnt := min req rem.length
    if cnt = 0 then B_SIZE
    else if rem.length < req then cnt
    else tailSpecF fuel (rem.drop cnt) 0

/-- The block sequence ingest reads from input `X` with the given head_skip. -/
def inputBlocks (X : List Nat) (skip : Nat) : List Block :=
  inputBlocksF (X.length + 1) X skip

/-- The tail_bytes field ingest leaves in the descriptor header. -/
def tailSpec (X : List Nat) (skip : Nat) : Nat :=
  tailSpecF (X.length + 1) X skip

/-- First occurrences of blocks not yet pooled, in input order. -/
def novAux (pool : List Block) : List Block → List Block
  | [] => []
  | b :: bs => if b ∈ pool then novAux pool bs else b :: novAux (pool ++ [b]) bs

/-- The 4-byte descriptor signature. -/
def IPIL : List Nat := [73, 80, 73, 76]

/-- An image descriptor file as output_original reads it. -/
structure DescriptorFile where
  sig : List Nat
  head_skip : Nat
  tail_bytes : Nat
  ords : List Nat
deriving DecidableEq, Repr

/-- The descriptor file ingest leaves behind. -/
def descFile (d : Descriptor) : DescriptorFile :=
  ⟨IPIL, d.head_skip, d.tail_bytes, d.ords⟩

/-- The ordinal batches of output_original: fread(blk, 4, B_SIZE/4) yields
full batches of 1024 ordinals followed by one short batch unless the count
divides evenly.  The fuel only bounds recursion; `l.length + 1` suffices. -/
def chunksF : Nat → List Nat → List (List Nat)
  | 0, _ => []
  | fuel + 1, l => if l = [] then [] else l.take 1024 :: chunksF fuel (l.drop 1024)

def chunks1024 (l : List Nat) : List (List Nat) := chunksF (l.length + 1) l

/-- The inner loop of output_original over one batch of ordinals.  `eof` is
the end-of-file indicator after the batch was read: per C stdio it is set
exactly when the batch came back short.  The final ordinal of the descriptor
is detected as `i == 1 && feof`; the head_skip branch writes the FIRST
`B_SIZE - skip` bytes of the block and clears skip; otherwise the whole
block is written.  Returns the written bytes and the live skip value. -/
def writeChunk (pool : List Block) (tail : Nat) (eof : Bool) : List Nat → Nat → Option (List Nat × Nat)
  | [], skip => some ([], skip)
  | o :: rest, skip =>
    match read_db_block pool o with
    | none => none
    | some data =>
      if rest = [] ∧ eof = true then some (data.take tail, skip)
      else if 0 < skip then
        match writeChunk pool tail eof rest 0 with
        | none => none
        | some (ws, s) => some (data.take (B_SIZE - skip) ++ ws, s)
      else
        match writeChunk pool tail eof rest skip with
        | none => none
        | some (ws, s) => some (data ++ ws, s)

/-- The outer loop of output_original over all batches. -/
def reconLoop (pool : List Block) (tail : Nat) : List (List Nat) → Nat → Option (List Nat)
  | [], _ => some []
  | c :: cs, skip =>
    match writeChunk pool tail (decide (c.length < 1024)) c skip with
    | none => none
    | some (w, s) =>
      match reconLoop pool tail cs s with
      | none => none
      | some ws => some (w ++ ws)

/-- output_original: verify the IPIL signature, validate head_skip < B_SIZE
and tail_bytes ≤ B_SIZE, then stream the referenced blocks. -/
def output_original (f : DescriptorFile) (pool : List Block) : Option (List Nat) :=
  if f.sig ≠ IPIL then none
  else if B_SIZE ≤ f.head_skip then none
  else if B_SIZE < f.tail_bytes then none
  else reconLoop pool f.tail_bytes (chunks1024 f.ords) f.head_skip

/-- Ingest an input into an empty pile, then reconstruct the descriptor
against the resulting pool. -/
def roundTrip (H : Block → Nat) (X : List Nat) (skip : Nat) : Option (List Nat) :=
  match input_image H X skip initState with
  | none => none
  | some (d, st) => output_original (descFile d) st.pool

/-- The everywhere-constant hash used to instantiate witnesses (any 64-bit
block hash is admissible; collisions only stress the byte verification). -/
def H0 : Block → Nat := fun _ => 0

/-- A 64-bit little-endian fingerprint record assembled from 8 file bytes. -/
def le64 (b0 b1 b2 b3 b4 b5 b6 b7 : Nat) : Hash :=
  b0 + 256 * (b1 + 256 * (b2 + 256 * (b3 + 256 * (b4 + 256 * (b5 + 256 * (b6 + 256 * b7))))))

/-- The complete 8-byte fingerprint records of an Index file, as the batched
fread(blk, 8, B_SIZE/8) loop consumes them: fread counts complete items
only, so a trailing group of fewer than 8 bytes yields no record. -/
def hashRecords : List Nat → List Hash
  | b0 :: b1 :: b2 :: b3 :: b4 :: b5 :: b6 :: b7 :: rest =>
    le64 b0 b1 b2 b3 b4 b5 b6 b7 :: hashRecords rest
  | _ => []

/-- The startup rebuild of main's add path: read the Index file and insert
the i-th fingerprint with ordinal i (hashcount, monotonic across batches),
without writing back to the file. -/
def rebuildState (bytes : List Nat) : PileState :=
  (withIdx 0 (hashRecords bytes)).foldl (fun s p => index_hash p.2 p.1 false s) initState

/-- The bucket array used by the C9 witness: bucket 0 holds one leaf with
fingerprints 0, 1, 0 at ordinals 5, 6, 7. -/
def topW : Nat → Bucket :=
  updBucket (fun _ => [⟨[]⟩]) 0 [⟨[⟨0, 5⟩, ⟨1, 6⟩, ⟨0, 7⟩]⟩]

theorem scanList_eq_none (h : Hash) :
    ∀ ns : List hash_node, scanList h ns = none ↔ ns.filter (fun n => n.hash == h) = [] := by
  intro ns
  induction ns with
  | nil => simp [scanList]
  | cons n ns ih =>
    by_cases hn : n.hash = h
    · simp [scanList, hn, List.filter_cons]
    · simp [scanList, hn, List.filter_cons, Option.map_eq_none, ih]

theorem scanList_eq_some (h : Hash) :
    ∀ ns : List hash_node, ∀ j off, scanList h ns = some (j, off) →
      (ns.filter (fun n => n.hash == h)).map hash_node.offset
        = off :: ((ns.drop (j + 1)).filter (fun n => n.hash == h)).map hash_node.offset := by
  intro ns
  induction ns with
  | nil => intro j off hj; simp [scanList] at hj
  | cons n ns ih =>
    intro j off hj
    by_cases hn : n.hash = h
    · simp [scanList, hn] at hj
      obtain ⟨hj0, hoff⟩ := hj
      subst hj0
      simp [List.filter_cons, hn, ← hoff]
    · cases hs : scanList h ns with
      | none => rw [scanList, if_neg hn, hs] at hj; simp at hj
      | some p =>
        obtain ⟨pj, poff⟩ := p
        rw [scanList, if_neg hn, hs] at hj
        simp at hj
        obtain ⟨hj1, hoff⟩ := hj
        subst hoff
        have hj0 : pj = j - 1 := by omega
        subst hj0
        have := ih _ _ hs
        rw [hj1] at this
        simp [List.filter_cons, hn, List.drop_succ_cons, this]

theorem scanLeafFrom_eq_none (h : Hash) (nodes : List hash_node) (rel : Nat) :
    scanLeafFrom h nodes rel = none ↔ (nodes.drop rel).filter (fun n => n.hash == h) = [] := by
  simp [scanLeafFrom, Option.map_eq_none, scanList_eq_none]

theorem scanLeafFrom_eq_some (h : Hash) (nodes : List hash_node) (rel : Nat) (j off : Nat)
    (hs : scanLeafFrom h nodes rel = some (j, off)) :
    ((nodes.drop rel).filter (fun n => n.hash == h)).map hash_node.offset
      = off :: ((nodes.drop (j + 1)).filter (fun n => n.hash == h)).map hash_node.offset := by
  rw [scanLeafFrom] at hs
  cases hp : scanList h (nodes.drop rel) with
  | none => rw [hp] at hs; simp at hs
  | some p =>
    obtain ⟨pj, poff⟩ := p
    rw [hp] at hs
    simp at hs
    obtain ⟨hj, hoff⟩ := hs
    subst hoff
    have := scanList_eq_some h _ _ _ hp
    rw [this, List.drop_drop]
    have h2 : rel + (pj + 1) = j + 1 := by omega
    rw [h2]

theorem scanFrom_eq_none (h : Hash) :
    ∀ ls rel, scanFrom h ls rel = none ↔ matchesFrom h ls rel = [] := by
  intro ls
  induction ls with
  | nil => intro rel; simp [scanFrom, matchesFrom]
  | cons l ls ih =>
    intro rel
    rw [scanFrom, matchesFrom]
    cases hs : scanLeafFrom h l.node rel with
    | none =>
      rw [scanLeafFrom_eq_none] at hs
      simp [hs, ih 0]
    | some p =>
      obtain ⟨j, off⟩ := p
      have := scanLeafFrom_eq_some h l.node rel j off hs
      simp [this]

theorem scanFrom_eq_some (h : Hash) :
    ∀ ls rel o c, scanFrom h ls rel = some (o, c) →
      matchesFrom h ls rel = o :: cursorMatches h c := by
  intro ls
  induction ls with
  | nil => intro rel o c hs; simp [scanFrom] at hs
  | cons l ls ih =>
    intro rel o c hs
    rw [scanFrom] at hs
    cases hl : scanLeafFrom h l.node rel with
    | none =>
      rw [hl] at hs
      rw [matchesFrom, (scanLeafFrom_eq_none h l.node rel).mp hl]
      simp [ih 0 o c hs]
    | some p =>
      obtain ⟨j, off⟩ := p
      rw [hl] at hs
      simp at hs
      obtain ⟨ho, hc⟩ := hs
      subst ho
      rw [← hc]
      rw [matchesFrom, cursorMatches]
      simp only [matchesFrom]
      rw [scanLeafFrom_eq_some h l.node rel j off hl]
      simp

/-- insertion into a bucket never leaves it empty. -/
theorem insert_leaves_ne_nil (n : hash_node) : ∀ ls, insert_leaves ls n ≠ [] := by
  intro ls
  induction ls with
  | nil => simp [insert_leaves]
  | cons l ls ih =>
    simp only [insert_leaves]
    by_cases hfull : l.node.length = HASH_ALLOC_SIZE
    · simp only [if_pos hfull]
      cases ls with
      | nil => simp
      | cons l2 ls2 => simp
    · simp [if_neg hfull]

theorem insert_flatten (n : hash_node) :
    ∀ ls, LeavesWF ls → flattenLeaves (insert_leaves ls n) = flattenLeaves ls ++ [n] := by
  intro ls hwf
  induction hwf with
  | nil => simp [insert_leaves, flattenLeaves]
  | single l hle =>
    simp only [insert_leaves]
    by_cases hfull : l.node.length = HASH_ALLOC_SIZE
    · simp [if_pos hfull, flattenLeaves]
    · simp [if_neg hfull, flattenLeaves]
  | cons l ls hfull hne t ih =>
    simp only [insert_leaves, if_pos hfull]
    cases ls with
    | nil => exact absurd rfl hne
    | cons l2 ls2 => simp [flattenLeaves] at ih ⊢; simp [ih]

theorem insert_wf (n : hash_node) :
    ∀ ls, LeavesWF ls → LeavesWF (insert_leaves ls n) := by
  intro ls hwf
  induction hwf with
  | nil =>
    simp only [insert_leaves]
    exact LeavesWF.single _ (by simp [HASH_ALLOC_SIZE])
  | single l hle =>
    simp only [insert_leaves]
    by_cases hfull : l.node.length = HASH_ALLOC_SIZE
    · simp only [if_pos hfull]
      exact LeavesWF.cons _ _ hfull (by simp) (LeavesWF.single _ (by simp [HASH_ALLOC_SIZE]))
    · simp only [if_neg hfull]
      exact LeavesWF.single _ (by simp; omega)
  | cons l ls hfull hne t ih =>
    simp only [insert_leaves, if_pos hfull]
    cases ls with
    | nil => exact absurd rfl hne
    | cons l2 ls2 =>
      exact LeavesWF.cons _ _ hfull (insert_leaves_ne_nil n _) ih

theorem withIdx_append {α : Type} (a : α) :
    ∀ (l : List α) (i : Nat), withIdx i (l ++ [a]) = withIdx i l ++ [(i + l.length, a)] := by
  intro l
  induction l with
  | nil => intro i; simp [withIdx]
  | cons x l ih =>
    intro i
    have h2 : i + 1 + l.length = i + (l.length + 1) := by omega
    simp [withIdx, ih (i + 1), h2]

theorem firstIdx_isSome (b : Block) :
    ∀ l : List Block, (firstIdx b l).isSome = true ↔ b ∈ l := by
  intro l
  induction l with
  | nil => simp [firstIdx]
  | cons a l ih =>
    by_cases ha : a = b
    · simp [firstIdx, ha]
    · simp [firstIdx, ha, ih, Option.isSome_map]
      intro hb
      exact absurd hb.symm ha

theorem firstIdx_append_left (b : Block) :
    ∀ l e, b ∈ l → firstIdx b (l ++ e) = firstIdx b l := by
  intro l
  induction l with
  | nil => intro e h; simp at h
  | cons a l ih =>
    intro e h
    by_cases ha : a = b
    · simp [firstIdx, ha]
    · have hb : b ∈ l := by
        rcases List.mem_cons.mp h with h1 | h1
        · exact absurd h1.symm ha
        · exact h1
      simp [firstIdx, ha, ih e hb]

theorem firstIdx_append_self (b : Block) :
    ∀ l, b ∉ l → firstIdx b (l ++ [b]) = some l.length := by
  intro l
  induction l with
  | nil => simp [firstIdx]
  | cons a l ih =>
    intro h
    have ha : ¬(a = b) := fun he => h (by simp [he])
    have hb : b ∉ l := fun hm => h (List.mem_cons_of_mem a hm)
    simp [firstIdx, ha, ih hb]

theorem firstIdx_none (b : Block) :
    ∀ l, firstIdx b l = none ↔ b ∉ l := by
  intro l
  constructor
  · intro h hm
    have := (firstIdx_isSome b l).mpr hm
    simp [h] at this
  · intro hm
    cases hf : firstIdx b l with
    | none => rfl
    | some i =>
      have : (firstIdx b l).isSome = true := by simp [hf]
      exact absurd ((firstIdx_isSome b l).mp this) hm

theorem inv_init (H : Block → Nat) : Inv H initState := by
  refine ⟨rfl, ?_, ?_⟩
  · intro k
    simp [initState, flattenLeaves, bucketSpec, withIdx]
  · intro k
    exact LeavesWF.single _ (by simp [HASH_ALLOC_SIZE])

theorem matchesFrom_zero (h : Hash) :
    ∀ ls, matchesFrom h ls 0
      = ((flattenLeaves ls).filter (fun n => n.hash == h)).map hash_node.offset := by
  intro ls
  induction ls with
  | nil => simp [matchesFrom, flattenLeaves]
  | cons l ls ih =>
    rw [matchesFrom]
    simp [flattenLeaves, List.filter_append, List.map_append] at ih ⊢
    exact ih

theorem bucketSpec_filter_aux (h : Hash) :
    ∀ (idx : List Hash) (base : Nat),
      (((((withIdx base idx).filter (fun p => HASH_HEAD p.2 == HASH_HEAD h)).map
          (fun p => (⟨p.2, p.1⟩ : hash_node))).filter (fun n => n.hash == h)).map hash_node.offset)
        = ((withIdx base idx).filter (fun p => p.2 == h)).map Prod.fst := by
  intro idx
  induction idx with
  | nil => intro base; simp [withIdx]
  | cons x idx ih =>
    intro base
    rw [withIdx]
    by_cases hx : x = h
    · simp [List.filter_cons, hx, ih (base + 1)]
    · by_cases hh : HASH_HEAD x = HASH_HEAD h
      · simp [List.filter_cons, hh, hx, ih (base + 1)]
      · simp [List.filter_cons, hh, hx, ih (base + 1)]

theorem bucketSpec_filter (idx : List Hash) (h : Hash) :
    ((bucketSpec idx (HASH_HEAD h)).filter (fun n => n.hash == h)).map hash_node.offset
      = ((withIdx 0 idx).filter (fun p => p.2 == h)).map Prod.fst := by
  rw [bucketSpec]
  exact bucketSpec_filter_aux h idx 0

theorem bucketSpec_append (idx : List Hash) (h : Hash) (k : Nat) :
    bucketSpec (idx ++ [h]) k
      = bucketSpec idx k ++ (if HASH_HEAD h == k then [⟨h, idx.length⟩] else []) := by
  rw [bucketSpec, withIdx_append, List.filter_append, List.map_append, bucketSpec]
  by_cases hk : HASH_HEAD h = k
  · simp [hk]
  · simp [hk]

theorem fbm_candFrom (H : Block → Nat) (blk : Block) (pool : List Block) :
    ∀ (suf : List Block) (base : Nat), pool.drop base = suf →
      firstByteMatch blk pool
          (((withIdx base (suf.map H)).filter (fun p => p.2 == H blk)).map Prod.fst)
        = some ((firstIdx blk suf).map (fun i => base + i)) := by
  intro suf
  induction suf with
  | nil => intro base h; simp [withIdx, firstByteMatch, firstIdx]
  | cons b rest ih =>
    intro base hdrop
    have hb : pool[base]? = some b := by
      have h0 := List.getElem?_drop pool base 0
      rw [hdrop, Nat.add_zero] at h0
      simpa using h0.symm
    have hrest : pool.drop (base + 1) = rest := by
      have h1 : (pool.drop base).drop 1 = pool.drop (base + 1) := by
        rw [List.drop_drop]
      rw [hdrop] at h1
      simpa using h1.symm
    have hcmp : compare_blocks blk base pool = some (blk == b) := by
      simp [compare_blocks, read_db_block, hb]
    rw [List.map_cons, withIdx]
    by_cases hH : H b = H blk
    · rw [List.filter_cons]
      simp only [hH, beq_self_eq_true, if_pos, List.map_cons]
      rw [firstByteMatch, hcmp]
      by_cases hbe : blk = b
      · simp only [hbe, beq_self_eq_true]
        simp [firstIdx, hbe]
      · have hbeq : (blk == b) = false := by simp [hbe]
        rw [hbeq]
        simp only []
        rw [ih (base + 1) hrest]
        have hab : ¬(b = blk) := fun he => hbe he.symm
        rw [firstIdx, if_neg hab]
        cases hfi : firstIdx blk rest with
        | none => simp [hfi]
        | some i =>
          simp [hfi]
          omega
    · have hbne : ¬(b = blk) := by
        intro he
        exact hH (by rw [he])
      rw [List.filter_cons]
      have hc : ((base, H b).2 == H blk) = false := by simp [hH]
      rw [hc]
      simp only [Bool.false_eq_true, if_false]
      rw [ih (base + 1) hrest]
      rw [firstIdx, if_neg hbne]
      cases hfi : firstIdx blk rest with
      | none => simp [hfi]
      | some i =>
        simp [hfi]
        omega

theorem get_block_offset_spec (H : Block → Nat) (blk : Block) (st : PileState) (hinv : Inv H st) :
    ∃ st', get_block_offset H blk st = some ((dstep st.pool blk).1, st')
      ∧ st'.pool = (dstep st.pool blk).2
      ∧ st'.hashindex = (dstep st.pool blk).2.map H
      ∧ Inv H st' := by
  have hc : candidates st.hash_top (H blk)
      = ((withIdx 0 (st.pool.map H)).filter (fun p => p.2 == H blk)).map Prod.fst := by
    rw [candidates, matchesFrom_zero, hinv.buckets, hinv.lock, bucketSpec_filter]
  have hfb := fbm_candFrom H blk st.pool st.pool 0 (by simp)
  cases hfi : firstIdx blk st.pool with
  | some i =>
    refine ⟨st, ?_, ?_, ?_, hinv⟩
    · rw [get_block_offset, hc, hfb, hfi]
      simp [dstep, hfi]
    · simp [dstep, hfi]
    · rw [dstep, hfi]
      exact hinv.lock
  | none =>
    refine ⟨index_hash (H blk) st.pool.length true { st with pool := st.pool ++ [blk] },
      ?_, ?_, ?_, ?_⟩
    · rw [get_block_offset, hc, hfb, hfi]
      simp [dstep, hfi, add_db_block]
    · simp [dstep, hfi, index_hash]
    · simp [dstep, hfi, index_hash, hinv.lock]
    · constructor
      · simp [index_hash, hinv.lock]
      · intro k
        simp only [index_hash, updBucket, cond]
        by_cases hk : k = HASH_HEAD (H blk)
        · rw [if_pos hk, hk]
          rw [insert_flatten _ _ (hinv.wf (HASH_HEAD (H blk)))]
          rw [hinv.buckets, bucketSpec_append]
          have hlen : st.hashindex.length = st.pool.length := by
            rw [hinv.lock, List.length_map]
          simp [hlen]
        · rw [if_neg hk]
          rw [hinv.buckets, bucketSpec_append]
          have hne : (HASH_HEAD (H blk) == k) = false := by
            simp
            intro he
            exact hk he.symm
          simp [hne, hinv.buckets]
      · intro k
        simp only [index_hash, updBucket]
        by_cases hk : k = HASH_HEAD (H blk)
        · rw [if_pos hk]
          exact insert_wf _ _ (hinv.wf (HASH_HEAD (H blk)))
        · rw [if_neg hk]
          exact hinv.wf k

theorem ingestLoopF_spec (H : Block → Nat) :
    ∀ fuel rem skip st, rem.length < fuel → Inv H st →
      ∃ st', ingestLoopF H fuel rem skip st
          = some (dfoldOrds st.pool (inputBlocksF fuel rem skip),
                  tailSpecF fuel rem skip, st')
        ∧ st'.pool = dfoldPool st.pool (inputBlocksF fuel rem skip)
        ∧ Inv H st' := by
  intro fuel
  induction fuel with
  | zero => intro rem skip st hlen; exact absurd hlen (Nat.not_lt_zero _)
  | succ fuel ih =>
    intro rem skip st hlen hinv
    simp only [ingestLoopF, inputBlocksF, tailSpecF]
    have hreqle : (if 0 < skip then B_SIZE - skip else B_SIZE) ≤ B_SIZE := by
      by_cases h : 0 < skip <;> simp [h, B_SIZE]
    have hreqpos : 0 < B_SIZE := by simp [B_SIZE]
    by_cases hc0 : min (if 0 < skip then B_SIZE - skip else B_SIZE) rem.length = 0
    · simp only [if_pos hc0]
      exact ⟨st, rfl, rfl, hinv⟩
    · simp only [if_neg hc0]
      by_cases heof : rem.length < (if 0 < skip then B_SIZE - skip else B_SIZE)
      · have hcnt : min (if 0 < skip then B_SIZE - skip else B_SIZE) rem.length = rem.length := by
          omega
        have hlt : min (if 0 < skip then B_SIZE - skip else B_SIZE) rem.length < B_SIZE := by
          omega
        simp only [if_pos (And.intro hlt heof)]
        obtain ⟨st', hgbo, hpool, hidx, hinv'⟩ := get_block_offset_spec H
          (rem.take (min (if 0 < skip then B_SIZE - skip else B_SIZE) rem.length)
            ++ List.replicate (B_SIZE - min (if 0 < skip then B_SIZE - skip else B_SIZE) rem.length) 0)
          st hinv
        rw [hgbo]
        refine ⟨st', ?_, ?_, hinv'⟩
        · simp only [if_pos heof]
          simp [dfoldOrds]
        · simp only [if_pos heof]
          simp [dfoldPool, hpool]
      · have hcnt : min (if 0 < skip then B_SIZE - skip else B_SIZE) rem.length
            = (if 0 < skip then B_SIZE - skip else B_SIZE) := by
          omega
        have hg2 : ¬(min (if 0 < skip then B_SIZE - skip else B_SIZE) rem.length < B_SIZE
            ∧ skip = 0) := by
          rintro ⟨h1, h2⟩
          rw [h2] at h1 hcnt
          simp at hcnt h1
          omega
        have hg1 : ¬(min (if 0 < skip then B_SIZE - skip else B_SIZE) rem.length < B_SIZE
            ∧ rem.length < (if 0 < skip then B_SIZE - skip else B_SIZE)) := by
          rintro ⟨h1, h2⟩
          exact heof h2
        simp only [if_neg hg1, if_neg hg2, if_neg heof]
        obtain ⟨st', hgbo, hpool, hidx, hinv'⟩ := get_block_offset_spec H
          (rem.take (min (if 0 < skip then B_SIZE - skip else B_SIZE) rem.length)
            ++ List.replicate (B_SIZE - min (if 0 < skip then B_SIZE - skip else B_SIZE) rem.length) 0)
          st hinv
        simp only [hgbo]
        have hlen' : (rem.drop (min (if 0 < skip then B_SIZE - skip else B_SIZE) rem.length)).length
            < fuel := by
          rw [List.length_drop]
          omega
        obtain ⟨st'', hrec, hpool'', hinv''⟩ := ih
          (rem.drop (min (if 0 < skip then B_SIZE - skip else B_SIZE) rem.length)) 0 st' hlen' hinv'
        simp only [if_neg heof, hrec]
        refine ⟨st'', ?_, ?_, hinv''⟩
        · simp only [dfoldOrds]
          rw [← hpool]
        · simp only [dfoldPool]
          rw [← hpool, hpool'']

theorem input_image_spec (H : Block → Nat) (X : List Nat) (skip : Nat) (st : PileState)
    (hinv : Inv H st) :
    ∃ st', input_image H X skip st
        = some (⟨skip, tailSpec X skip, dfoldOrds st.pool (inputBlocks X skip)⟩, st')
      ∧ st'.pool = dfoldPool st.pool (inputBlocks X skip)
      ∧ Inv H st' := by
  obtain ⟨st', heq, hpool, hinv'⟩ :=
    ingestLoopF_spec H (X.length + 1) X skip st (by omega) hinv
  refine ⟨st', ?_, hpool, hinv'⟩
  rw [input_image, heq]
  rfl

theorem dstep_ext (pool : List Block) (b : Block) :
    ∃ ext, (dstep pool b).2 = pool ++ ext := by
  rw [dstep]
  cases hfi : firstIdx b pool with
  | some i => exact ⟨[], by simp⟩
  | none => exact ⟨[b], rfl⟩

theorem dstep_firstIdx (pool : List Block) (b : Block) :
    firstIdx b (dstep pool b).2 = some (dstep pool b).1 := by
  rw [dstep]
  cases hfi : firstIdx b pool with
  | some i => simpa using hfi
  | none =>
    have : b ∉ pool := (firstIdx_none b pool).mp hfi
    simpa using firstIdx_append_self b pool this

theorem dstep_mem (pool : List Block) (b : Block) : b ∈ (dstep pool b).2 := by
  have := dstep_firstIdx pool b
  have h2 : (firstIdx b (dstep pool b).2).isSome = true := by simp [this]
  exact (firstIdx_isSome b _).mp h2

theorem dfoldPool_ext : ∀ (bs : List Block) (pool : List Block),
    ∃ ext, dfoldPool pool bs = pool ++ ext := by
  intro bs
  induction bs with
  | nil => intro pool; exact ⟨[], by simp [dfoldPool]⟩
  | cons b bs ih =>
    intro pool
    obtain ⟨e1, he1⟩ := dstep_ext pool b
    obtain ⟨e2, he2⟩ := ih (dstep pool b).2
    refine ⟨e1 ++ e2, ?_⟩
    rw [dfoldPool, he2, he1, List.append_assoc]

theorem firstIdx_stable (b : Block) (pool ext : List Block) (h : b ∈ pool) :
    firstIdx b (pool ++ ext) = firstIdx b pool :=
  firstIdx_append_left b pool ext h

/-- Deduplicated occurrences: later repeats of a block already in the pool
produce the position of its first occurrence. -/
theorem dfoldOrds_of_mem : ∀ (bs : List Block) (pool : List Block) (k : Nat) (b : Block),
    b ∈ pool → bs[k]? = some b → (dfoldOrds pool bs)[k]? = firstIdx b pool := by
  intro bs
  induction bs with
  | nil => intro pool k b hmem hk; simp at hk
  | cons b0 rest ih =>
    intro pool k b hmem hk
    cases k with
    | zero =>
      simp at hk
      subst hk
      rw [dfoldOrds]
      have hsome : (firstIdx b0 pool).isSome = true := (firstIdx_isSome b0 pool).mpr hmem
      cases hfi : firstIdx b0 pool with
      | none => rw [hfi] at hsome; simp at hsome
      | some i => simp [dstep, hfi]
    | succ k =>
      simp only [dfoldOrds, List.getElem?_cons_succ]
      rw [List.getElem?_cons_succ] at hk
      obtain ⟨ext, hext⟩ := dstep_ext pool b0
      have hmem' : b ∈ (dstep pool b0).2 := by rw [hext]; exact List.mem_append_left _ hmem
      rw [ih (dstep pool b0).2 k b hmem' hk, hext, firstIdx_stable b pool ext hmem]

/-- Within one fold, two occurrences of the same block emit equal ordinals. -/
theorem dfoldOrds_repeat : ∀ (bs : List Block) (pool : List Block) (i j : Nat) (b : Block),
    i < j → bs[i]? = some b → bs[j]? = some b →
    (dfoldOrds pool bs)[j]? = (dfoldOrds pool bs)[i]? := by
  intro bs
  induction bs with
  | nil => intro pool i j b hij hi hj; simp at hi
  | cons b0 rest ih =>
    intro pool i j b hij hi hj
    cases i with
    | zero =>
      simp at hi
      subst hi
      cases j with
      | zero => exact absurd hij (by omega)
      | succ j =>
        simp only [dfoldOrds, List.getElem?_cons_succ, List.getElem?_cons_zero]
        rw [List.getElem?_cons_succ] at hj
        rw [dfoldOrds_of_mem rest (dstep pool b0).2 j b0 (dstep_mem pool b0) hj]
        rw [dstep_firstIdx]
    | succ i =>
      cases j with
      | zero => exact absurd hij (by omega)
      | succ j =>
        simp only [dfoldOrds, List.getElem?_cons_succ]
        rw [List.getElem?_cons_succ] at hi hj
        exact ih (dstep pool b0).2 i j b (by omega) hi hj

theorem dfoldPool_nov : ∀ (bs : List Block) (pool : List Block),
    dfoldPool pool bs = pool ++ novAux pool bs := by
  intro bs
  induction bs with
  | nil => intro pool; simp [dfoldPool, novAux]
  | cons b bs ih =>
    intro pool
    rw [dfoldPool, novAux]
    by_cases hmem : b ∈ pool
    · have hsome : (firstIdx b pool).isSome = true := (firstIdx_isSome b pool).mpr hmem
      cases hfi : firstIdx b pool with
      | none => rw [hfi] at hsome; simp at hsome
      | some i => simp only [if_pos hmem]; rw [show (dstep pool b).2 = pool from by simp [dstep, hfi], ih]
    · have hfi : firstIdx b pool = none := (firstIdx_none b pool).mpr hmem
      simp only [if_neg hmem]
      rw [show (dstep pool b).2 = pool ++ [b] from by simp [dstep, hfi], ih]
      simp

theorem dfoldOrds_length : ∀ (bs : List Block) (pool : List Block),
    (dfoldOrds pool bs).length = bs.length := by
  intro bs
  induction bs with
  | nil => intro pool; simp [dfoldOrds]
  | cons b bs ih => intro pool; simp [dfoldOrds, ih]

theorem inputBlocksF_fuel : ∀ f1 f2 (rem : List Nat) (skip : Nat),
    rem.length < f1 → rem.length < f2 → inputBlocksF f1 rem skip = inputBlocksF f2 rem skip := by
  intro f1
  induction f1 with
  | zero => intro f2 rem skip h1; exact absurd h1 (Nat.not_lt_zero _)
  | succ g ih =>
    intro f2 rem skip h1 h2
    cases f2 with
    | zero => exact absurd h2 (Nat.not_lt_zero _)
    | succ h =>
      simp only [inputBlocksF]
      by_cases hc0 : min (if 0 < skip then B_SIZE - skip else B_SIZE) rem.length = 0
      · simp only [if_pos hc0]
      · simp only [if_neg hc0]
        by_cases heof : rem.length < (if 0 < skip then B_SIZE - skip else B_SIZE)
        · simp only [if_pos heof]
        · simp only [if_neg heof]
          have hd : (rem.drop (min (if 0 < skip then B_SIZE - skip else B_SIZE) rem.length)).length
              < g := by
            rw [List.length_drop]; omega
          have hd2 : (rem.drop (min (if 0 < skip then B_SIZE - skip else B_SIZE) rem.length)).length
              < h := by
            rw [List.length_drop]; omega
          rw [ih h _ 0 hd hd2]

theorem tailSpecF_fuel : ∀ f1 f2 (rem : List Nat) (skip : Nat),
    rem.length < f1 → rem.length < f2 → tailSpecF f1 rem skip = tailSpecF f2 rem skip := by
  intro f1
  induction f1 with
  | zero => intro f2 rem skip h1; exact absurd h1 (Nat.not_lt_zero _)
  | succ g ih =>
    intro f2 rem skip h1 h2
    cases f2 with
    | zero => exact absurd h2 (Nat.not_lt_zero _)
    | succ h =>
      simp only [tailSpecF]
      by_cases hc0 : min (if 0 < skip then B_SIZE - skip else B_SIZE) rem.length = 0
      · simp only [if_pos hc0]
      · simp only [if_neg hc0]
        by_cases heof : rem.length < (if 0 < skip then B_SIZE - skip else B_SIZE)
        · simp only [if_pos heof]
        · simp only [if_neg heof]
          have hd : (rem.drop (min (if 0 < skip then B_SIZE - skip else B_SIZE) rem.length)).length
              < g := by
            rw [List.length_drop]; omega
          have hd2 : (rem.drop (min (if 0 < skip then B_SIZE - skip else B_SIZE) rem.length)).length
              < h := by
            rw [List.length_drop]; omega
          rw [ih h _ 0 hd hd2]

theorem chunksF_fuel : ∀ f1 f2 (l : List Nat),
    l.length < f1 → l.length < f2 → chunksF f1 l = chunksF f2 l := by
  intro f1
  induction f1 with
  | zero => intro f2 l h1; exact absurd h1 (Nat.not_lt_zero _)
  | succ g ih =>
    intro f2 l h1 h2
    cases f2 with
    | zero => exact absurd h2 (Nat.not_lt_zero _)
    | succ h =>
      simp only [chunksF]
      by_cases hl : l = []
      · simp only [if_pos hl]
      · simp only [if_neg hl]
        have hlen : 0 < l.length := List.length_pos.mpr hl
        have hd : (l.drop 1024).length < g := by rw [List.length_drop]; omega
        have hd2 : (l.drop 1024).length < h := by rw [List.length_drop]; omega
        rw [ih h _ hd hd2]

theorem inputBlocks_zero (X : List Nat) (skip : Nat)
    (h : min (if 0 < skip then B_SIZE - skip else B_SIZE) X.length = 0) :
    inputBlocks X skip = [] := by
  rw [inputBlocks, inputBlocksF, if_pos h]

theorem inputBlocks_eof (X : List Nat) (skip : Nat)
    (h0 : ¬ min (if 0 < skip then B_SIZE - skip else B_SIZE) X.length = 0)
    (h1 : X.length < (if 0 < skip then B_SIZE - skip else B_SIZE)) :
    inputBlocks X skip
      = [X.take (min (if 0 < skip then B_SIZE - skip else B_SIZE) X.length)
          ++ List.replicate (B_SIZE - min (if 0 < skip then B_SIZE - skip else B_SIZE) X.length) 0] := by
  rw [inputBlocks, inputBlocksF, if_neg h0, if_pos h1]

theorem inputBlocks_step (X : List Nat) (skip : Nat)
    (h0 : ¬ min (if 0 < skip then B_SIZE - skip else B_SIZE) X.length = 0)
    (h1 : ¬ X.length < (if 0 < skip then B_SIZE - skip else B_SIZE)) :
    inputBlocks X skip
      = (X.take (min (if 0 < skip then B_SIZE - skip else B_SIZE) X.length)
          ++ List.replicate (B_SIZE - min (if 0 < skip then B_SIZE - skip else B_SIZE) X.length) 0)
        :: inputBlocks (X.drop (min (if 0 < skip then B_SIZE - skip else B_SIZE) X.length)) 0 := by
  rw [inputBlocks, inputBlocksF, if_neg h0, if_neg h1, inputBlocks]
  have hpos : 0 < min (if 0 < skip then B_SIZE - skip else B_SIZE) X.length := by omega
  have hlx : 0 < X.length := by omega
  rw [inputBlocksF_fuel X.length
    ((X.drop (min (if 0 < skip then B_SIZE - skip else B_SIZE) X.length)).length + 1) _ 0
    (by rw [List.length_drop]; omega) (by omega)]

theorem tailSpec_zero (X : List Nat) (skip : Nat)
    (h : min (if 0 < skip then B_SIZE - skip else B_SIZE) X.length = 0) :
    tailSpec X skip = B_SIZE := by
  rw [tailSpec, tailSpecF, if_pos h]

theorem tailSpec_eof (X : List Nat) (skip : Nat)
    (h0 : ¬ min (if 0 < skip then B_SIZE - skip else B_SIZE) X.length = 0)
    (h1 : X.length < (if 0 < skip then B_SIZE - skip else B_SIZE)) :
    tailSpec X skip = min (if 0 < skip then B_SIZE - skip else B_SIZE) X.length := by
  rw [tailSpec, tailSpecF, if_neg h0, if_pos h1]

theorem tailSpec_step (X : List Nat) (skip : Nat)
    (h0 : ¬ min (if 0 < skip then B_SIZE - skip else B_SIZE) X.length = 0)
    (h1 : ¬ X.length < (if 0 < skip then B_SIZE - skip else B_SIZE)) :
    tailSpec X skip
      = tailSpec (X.drop (min (if 0 < skip then B_SIZE - skip else B_SIZE) X.length)) 0 := by
  rw [tailSpec, tailSpecF, if_neg h0, if_neg h1, tailSpec]
  have hpos : 0 < min (if 0 < skip then B_SIZE - skip else B_SIZE) X.length := by omega
  have hlx : 0 < X.length := by omega
  rw [tailSpecF_fuel X.length
    ((X.drop (min (if 0 < skip then B_SIZE - skip else B_SIZE) X.length)).length + 1) _ 0
    (by rw [List.length_drop]; omega) (by omega)]

theorem chunks1024_nil : chunks1024 [] = [] := rfl

theorem chunks1024_cons (l : List Nat) (h : l ≠ []) :
    chunks1024 l = l.take 1024 :: chunks1024 (l.drop 1024) := by
  rw [chunks1024, chunksF, if_neg h, chunks1024]
  have hlen : 0 < l.length := List.length_pos.mpr h
  rw [chunksF_fuel l.length ((l.drop 1024).length + 1) _
    (by rw [List.length_drop]; omega) (by omega)]

theorem inputBlocks_exact_head_skip :
    inputBlocks (List.replicate 3584 0) 512 = [List.replicate 4096 0]
    ∧ tailSpec (List.replicate 3584 0) 512 = B_SIZE := by
  have hlen : (List.replicate 3584 (0 : Nat)).length = 3584 := List.length_replicate 3584 0
  have h0 : ¬ min (if 0 < 512 then B_SIZE - 512 else B_SIZE)
      (List.replicate 3584 (0 : Nat)).length = 0 := by
    rw [hlen]; decide
  have h1 : ¬ (List.replicate 3584 (0 : Nat)).length
      < (if 0 < 512 then B_SIZE - 512 else B_SIZE) := by
    rw [hlen]; decide
  have hmin : min (if 0 < 512 then B_SIZE - 512 else B_SIZE)
      (List.replicate 3584 (0 : Nat)).length = 3584 := by
    rw [hlen]; decide
  have hblk : (List.replicate 3584 (0 : Nat)).take 3584
      ++ List.replicate (B_SIZE - 3584) 0 = List.replicate 4096 0 := by
    rw [List.take_replicate]
    rw [show B_SIZE - 3584 = 512 from by decide]
    rw [show min 3584 3584 = 3584 from by decide]
    rw [← List.replicate_add]
  have hdrop : (List.replicate 3584 (0 : Nat)).drop 3584 = [] := by
    rw [List.drop_replicate]
    rfl
  constructor
  · rw [inputBlocks_step _ _ h0 h1, hmin, hblk, hdrop]
    rw [inputBlocks_zero _ _ (by decide)]
  · rw [tailSpec_step _ _ h0 h1, hmin, hdrop]
    rw [tailSpec_zero _ _ (by decide)]

/-- Claim C1: round-trip identity fails on the code.  For the 3584-byte
input with head_skip 512, the first read is satisfied exactly, so feof stays
false and ingest never rewrites the placeholder tail_bytes; reconstruct then
emits the full 4096-byte zero-padded block instead of the original 3584
bytes. -/
theorem roundtrip_fails_on_exact_head_skip_input :
    roundTrip H0 (List.replicate 3584 0) 512 = some (List.replicate 4096 0)
    ∧ roundTrip H0 (List.replicate 3584 0) 512 ≠ some (List.replicate 3584 0) := by
  obtain ⟨hblocks, htail⟩ := inputBlocks_exact_head_skip
  obtain ⟨st', heq, hpool, hinv'⟩ :=
    input_image_spec H0 (List.replicate 3584 0) 512 initState (inv_init H0)
  rw [hblocks] at heq hpool
  rw [htail] at heq
  have hords : dfoldOrds initState.pool [List.replicate 4096 0] = [0] := by
    show dfoldOrds [] [List.replicate 4096 0] = [0]
    rw [dfoldOrds, dfoldOrds]
    rfl
  have hpool2 : dfoldPool initState.pool [List.replicate 4096 0] = [List.replicate 4096 0] := by
    show dfoldPool [] [List.replicate 4096 0] = [List.replicate 4096 0]
    rw [dfoldPool, dfoldPool]
    rfl
  rw [hords] at heq
  rw [hpool2] at hpool
  have hout : roundTrip H0 (List.replicate 3584 0) 512
      = output_original (descFile ⟨512, B_SIZE, [0]⟩) st'.pool := by
    rw [roundTrip, heq]
  rw [hpool] at hout
  have hchunks : chunks1024 [0] = [[0]] := by
    rw [chunks1024_cons [0] (by simp)]
    simp [chunks1024_nil]
  have hwc : writeChunk [List.replicate 4096 0] B_SIZE
      (decide (([0] : List Nat).length < 1024)) [0] 512
      = some (List.replicate 4096 0, 512) := by
    simp only [writeChunk]
    simp only [show read_db_block [List.replicate 4096 0] 0
      = some (List.replicate 4096 0) from rfl]
    rw [if_pos (And.intro trivial (by decide))]
    rw [List.take_replicate]
    rw [show min B_SIZE 4096 = 4096 from by decide]
  have hrecon : output_original (descFile ⟨512, B_SIZE, [0]⟩) [List.replicate 4096 0]
      = some (List.replicate 4096 0) := by
    rw [output_original]
    rw [if_neg (by simp [descFile, IPIL])]
    rw [if_neg (by simp [descFile, B_SIZE])]
    rw [if_neg (by simp [descFile, B_SIZE])]
    show reconLoop [List.replicate 4096 0] B_SIZE (chunks1024 [0]) 512 = _
    rw [hchunks]
    simp only [reconLoop, hwc]
    rw [List.append_nil]
  rw [hrecon] at hout
  refine ⟨hout, ?_⟩
  rw [hout]
  intro hcontra
  have h1 : List.replicate (4096 : Nat) 0 = List.replicate 3584 0 := Option.some.inj hcontra
  have h2 := congrArg List.length h1
  rw [List.length_replicate, List.length_replicate] at h2
  exact absurd h2 (by decide)

/-- Claim C7 counterexample: a read of zero bytes at end-of-input is "fewer
than the requested bytes", but ingest of the empty input appends nothing and
leaves the placeholder tail_bytes B_SIZE, instead of resolving a zero-padded
block and rewriting tail_bytes to 0 as the claim demands. -/
theorem empty_read_no_append :
    input_image H0 [] 0 initState = some (⟨0, B_SIZE, []⟩, initState)
    ∧ ¬ ∃ d st', input_image H0 [] 0 initState = some (d, st')
        ∧ d.ords.length = 1 ∧ d.tail_bytes = 0 := by
  have h : input_image H0 [] 0 initState = some (⟨0, B_SIZE, []⟩, initState) := rfl
  refine ⟨h, ?_⟩
  rintro ⟨d, st', h2, h3, h4⟩
  rw [h] at h2
  have hd : (⟨0, B_SIZE, []⟩ : Descriptor) = d := congrArg Prod.fst (Option.some.inj h2)
  rw [← hd] at h3
  simp at h3

/-- Claim C7 (amended): when a read returns at least one but fewer than the
requested bytes at end-of-input, ingest zero-pads the buffer to B_SIZE,
resolves the padded block, appends its ordinal to the descriptor, rewrites
tail_bytes at header offset 8 to the actual byte count of that final read,
and stops. -/
theorem ingest_eof_short_read_final_block (H : Block → Nat) (X : List Nat) (skip : Nat)
    (st : PileState) (h0 : 0 < X.length)
    (h1 : X.length < (if 0 < skip then B_SIZE - skip else B_SIZE)) :
    input_image H X skip st
      = (get_block_offset H (X ++ List.replicate (B_SIZE - X.length) 0) st).map
          (fun p => (⟨skip, X.length, [p.1]⟩, p.2)) := by
  rw [input_image]
  simp only [ingestLoopF]
  have hc0 : ¬ min (if 0 < skip then B_SIZE - skip else B_SIZE) X.length = 0 := by omega
  have hmin : min (if 0 < skip then B_SIZE - skip else B_SIZE) X.length = X.length := by omega
  have hle : (if 0 < skip then B_SIZE - skip else B_SIZE) ≤ B_SIZE := by
    by_cases h : 0 < skip <;> simp [h]
  have hcnt_lt : min (if 0 < skip then B_SIZE - skip else B_SIZE) X.length < B_SIZE := by
    omega
  simp only [if_neg hc0, if_pos (And.intro hcnt_lt h1)]
  rw [hmin, List.take_length]
  cases hg : get_block_offset H (X ++ List.replicate (B_SIZE - X.length) 0) st with
  | none => simp
  | some p =>
    obtain ⟨o, st'⟩ := p
    simp

/-- Witness for claim C7: ingesting the single byte 7 resolves the block
padded with 4095 zero bytes, emits its ordinal, and sets tail_bytes to 1. -/
theorem ingest_eof_short_read_final_block_witness :
    input_image H0 [7] 0 initState
      = (get_block_offset H0 ([7] ++ List.replicate (B_SIZE - 1) 0) initState).map
          (fun p => (⟨0, 1, [p.1]⟩, p.2)) := by
  have h := ingest_eof_short_read_final_block H0 [7] 0 initState (by decide) (by decide)
  simpa using h

theorem index_hash_buckets (h : Hash) (n : Nat) (wr : Bool) (st : PileState) (idx : List Hash)
    (hb : ∀ k, flattenLeaves (st.hash_top k) = bucketSpec idx k)
    (hw : ∀ k, LeavesWF (st.hash_top k)) (hn : n = idx.length) :
    (∀ k, flattenLeaves ((index_hash h n wr st).hash_top k) = bucketSpec (idx ++ [h]) k)
    ∧ (∀ k, LeavesWF ((index_hash h n wr st).hash_top k)) := by
  constructor
  · intro k
    simp only [index_hash, updBucket]
    by_cases hk : k = HASH_HEAD h
    · rw [if_pos hk, hk]
      rw [insert_flatten _ _ (hw (HASH_HEAD h))]
      rw [hb, bucketSpec_append, hn]
      simp
    · rw [if_neg hk]
      rw [hb, bucketSpec_append]
      have hne : (HASH_HEAD h == k) = false := by
        simp
        intro he
        exact hk he.symm
      simp [hne]
  · intro k
    simp only [index_hash, updBucket]
    by_cases hk : k = HASH_HEAD h
    · rw [if_pos hk]
      exact insert_wf _ _ (hw (HASH_HEAD h))
    · rw [if_neg hk]
      exact hw k

theorem rebuild_fold (rest : List Hash) : ∀ (acc : List Hash) (st : PileState),
    (∀ k, flattenLeaves (st.hash_top k) = bucketSpec acc k) →
    (∀ k, LeavesWF (st.hash_top k)) →
    ∀ k, flattenLeaves
        (((withIdx acc.length rest).foldl (fun s p => index_hash p.2 p.1 false s) st).hash_top k)
      = bucketSpec (acc ++ rest) k := by
  induction rest with
  | nil => intro acc st hb hw k; simp [withIdx]; exact hb k
  | cons h rest ih =>
    intro acc st hb hw k
    rw [withIdx, List.foldl_cons]
    obtain ⟨hb', hw'⟩ := index_hash_buckets h acc.length false st acc hb hw rfl
    have hlen : acc.length + 1 = (acc ++ [h]).length := by simp
    rw [hlen]
    have := ih (acc ++ [h]) (index_hash h acc.length false st) hb' hw' k
    rw [List.append_assoc] at this
    simpa using this

theorem hashRecords_take : ∀ (n : Nat) (bytes : List Nat), bytes.length ≤ n →
    hashRecords bytes = hashRecords (bytes.take (8 * (bytes.length / 8))) := by
  intro n
  induction n with
  | zero =>
    intro bytes h
    have : bytes = [] := List.length_eq_zero.mp (by omega)
    subst this
    rfl
  | succ n ih =>
    intro bytes h
    rcases bytes with _ | ⟨b0, _ | ⟨b1, _ | ⟨b2, _ | ⟨b3, _ | ⟨b4, _ | ⟨b5, _ | ⟨b6, _ | ⟨b7, rest⟩⟩⟩⟩⟩⟩⟩⟩
    · rfl
    · simp [hashRecords]
    · simp [hashRecords]
    · simp [hashRecords]
    · simp [hashRecords]
    · simp [hashRecords]
    · simp [hashRecords]
    · simp [hashRecords]
    · have hlen : (b0 :: b1 :: b2 :: b3 :: b4 :: b5 :: b6 :: b7 :: rest).length
          = rest.length + 8 := by simp
      rw [hlen]
      have harith : 8 * ((rest.length + 8) / 8) = 8 * (rest.length / 8) + 8 := by omega
      rw [harith]
      have htake : (b0 :: b1 :: b2 :: b3 :: b4 :: b5 :: b6 :: b7 :: rest).take
            (8 * (rest.length / 8) + 8)
          = b0 :: b1 :: b2 :: b3 :: b4 :: b5 :: b6 :: b7 :: rest.take (8 * (rest.length / 8)) := rfl
      rw [htake, hashRecords, hashRecords]
      have hrest : rest.length ≤ n := by
        rw [hlen] at h
        omega
      rw [← ih rest hrest]

/-- Claim C8 counterexample: an Index file of 12 bytes (one full record and a
trailing partial record) is not a fatal corruption error; the rebuild loop
counts complete 8-byte records only, silently ignores the 4 trailing bytes,
and inserts the single parsed fingerprint. -/
theorem trailing_index_record_ignored :
    hashRecords (List.replicate 12 0) = [0]
    ∧ (List.replicate 12 0).length % 8 ≠ 0
    ∧ flattenLeaves ((rebuildState (List.replicate 12 0)).hash_top 0) = [⟨0, 0⟩] := by
  refine ⟨by decide, by decide, by decide⟩

/-- Claim C8 (amended): at startup rebuild the i-th complete fingerprint
record of the Index file is inserted into its bucket with ordinal i (the
running count, monotonic and never reset), and an Index file whose size is
not a multiple of 8 is processed with its trailing partial record silently
ignored rather than raising a corruption error. -/
theorem rebuild_ordinal_assignment :
    (∀ bytes : List Nat, ∀ k, flattenLeaves ((rebuildState bytes).hash_top k)
        = bucketSpec (hashRecords bytes) k)
    ∧ (∀ bytes : List Nat, hashRecords bytes = hashRecords (bytes.take (8 * (bytes.length / 8)))) := by
  constructor
  · intro bytes k
    have h0 : ∀ k, flattenLeaves (initState.hash_top k) = bucketSpec ([] : List Hash) k := by
      intro k2
      simp [initState, flattenLeaves, bucketSpec, withIdx]
    have hw : ∀ k, LeavesWF (initState.hash_top k) := fun _ =>
      LeavesWF.single _ (by simp [HASH_ALLOC_SIZE])
    have := rebuild_fold (hashRecords bytes) [] initState h0 hw k
    simpa [rebuildState] using this
  · intro bytes
    exact hashRecords_take bytes.length bytes (le_refl _)

/-- Claim C9: find_hash_match with a reset cursor starts the enumeration of
every stored ordinal whose fingerprint equals the query, in insertion order
within and across the leaves of the selected bucket (the filter of the
flattened bucket); each resumed call continues just past the previously
returned candidate without restarting, and a not-found result occurs exactly
when the remaining matches are exhausted. -/
theorem find_hash_match_enumeration (top : Nat → Bucket) (h : Hash) :
    (find_hash_match top h none = none ↔ candidates top h = [])
    ∧ (∀ o c, find_hash_match top h none = some (o, c) →
        candidates top h = o :: cursorMatches h c)
    ∧ (∀ c, (find_hash_match top h (some c) = none ↔ cursorMatches h c = []))
    ∧ (∀ c o c', find_hash_match top h (some c) = some (o, c') →
        cursorMatches h c = o :: cursorMatches h c')
    ∧ (∀ ls, matchesFrom h ls 0
        = ((flattenLeaves ls).filter (fun n => n.hash == h)).map hash_node.offset) := by
  refine ⟨?_, ?_, ?_, ?_, matchesFrom_zero h⟩
  · rw [candidates]
    exact scanFrom_eq_none h (top (HASH_HEAD h)) 0
  · intro o c hf
    rw [candidates]
    exact scanFrom_eq_some h (top (HASH_HEAD h)) 0 o c hf
  · intro c
    rw [cursorMatches]
    cases hc : c.leaves with
    | nil =>
      simp [find_hash_match, hc, matchesFrom]
    | cons l ls =>
      rw [find_hash_match]
      simp only [hc]
      by_cases hrel : c.rel < l.node.length
      · rw [if_pos hrel]
        exact scanFrom_eq_none h (l :: ls) (c.rel + 1)
      · rw [if_neg hrel]
        have hd : l.node.drop (c.rel + 1) = [] :=
          List.drop_eq_nil_of_le (by omega)
        cases ls with
        | nil => simp [matchesFrom, hd]
        | cons l2 ls2 =>
          rw [matchesFrom, hd]
          simp only [List.filter_nil, List.map_nil, List.nil_append]
          exact scanFrom_eq_none h (l2 :: ls2) 0
  · intro c o c' hf
    rw [cursorMatches]
    cases hc : c.leaves with
    | nil => rw [find_hash_match] at hf; simp [hc] at hf
    | cons l ls =>
      rw [find_hash_match] at hf
      simp only [hc] at hf
      by_cases hrel : c.rel < l.node.length
      · rw [if_pos hrel] at hf
        exact scanFrom_eq_some h (l :: ls) (c.rel + 1) o c' hf
      · rw [if_neg hrel] at hf
        have hd : l.node.drop (c.rel + 1) = [] :=
          List.drop_eq_nil_of_le (by omega)
        cases ls with
        | nil => simp at hf
        | cons l2 ls2 =>
          rw [matchesFrom, hd]
          simp only [List.filter_nil, List.map_nil, List.nil_append]
          exact scanFrom_eq_some h (l2 :: ls2) 0 o c' hf

/-- Witness for claim C9: querying fingerprint 0 enumerates ordinals 5 then
7 (skipping the non-matching entry), resuming from the returned cursors, and
then reports exhaustion. -/
theorem find_hash_match_enumeration_witness :
    candidates topW 0 = 5 :: cursorMatches 0 ⟨[⟨[⟨0, 5⟩, ⟨1, 6⟩, ⟨0, 7⟩]⟩], 0⟩
    ∧ cursorMatches 0 (⟨[⟨[⟨0, 5⟩, ⟨1, 6⟩, ⟨0, 7⟩]⟩], 0⟩ : FindCursor)
        = 7 :: cursorMatches 0 ⟨[⟨[⟨0, 5⟩, ⟨1, 6⟩, ⟨0, 7⟩]⟩], 2⟩
    ∧ cursorMatches 0 (⟨[⟨[⟨0, 5⟩, ⟨1, 6⟩, ⟨0, 7⟩]⟩], 2⟩ : FindCursor) = [] := by
  refine ⟨?_, ?_, ?_⟩
  · exact (find_hash_match_enumeration topW 0).2.1 5 ⟨[⟨[⟨0, 5⟩, ⟨1, 6⟩, ⟨0, 7⟩]⟩], 0⟩ rfl
  · exact (find_hash_match_enumeration topW 0).2.2.2.1 ⟨[⟨[⟨0, 5⟩, ⟨1, 6⟩, ⟨0, 7⟩]⟩], 0⟩ 7
      ⟨[⟨[⟨0, 5⟩, ⟨1, 6⟩, ⟨0, 7⟩]⟩], 2⟩ rfl
  · exact ((find_hash_match_enumeration topW 0).2.2.1 ⟨[⟨[⟨0, 5⟩, ⟨1, 6⟩, ⟨0, 7⟩]⟩], 2⟩).mp rfl

theorem inputBlocks_two_full (a b : Block) (ha : a.length = B_SIZE) (hb : b.length = B_SIZE) :
    inputBlocks (a ++ b) 0 = [a, b] ∧ tailSpec (a ++ b) 0 = B_SIZE := by
  have hB : B_SIZE = 4096 := rfl
  have hlen : (a ++ b).length = B_SIZE + B_SIZE := by
    rw [List.length_append, ha, hb]
  have h0 : ¬ min (if 0 < 0 then B_SIZE - 0 else B_SIZE) (a ++ b).length = 0 := by
    simp only [if_neg (by omega : ¬ (0:Nat) < 0)]
    rw [hlen]
    omega
  have h1 : ¬ (a ++ b).length < (if 0 < 0 then B_SIZE - 0 else B_SIZE) := by
    simp only [if_neg (by omega : ¬ (0:Nat) < 0)]
    rw [hlen]
    omega
  have hmin : min (if 0 < 0 then B_SIZE - 0 else B_SIZE) (a ++ b).length = B_SIZE := by
    simp only [if_neg (by omega : ¬ (0:Nat) < 0)]
    rw [hlen]
    omega
  have htake : (a ++ b).take B_SIZE = a := by
    rw [← ha]
    exact List.take_left a b
  have hdrop : (a ++ b).drop B_SIZE = b := by
    rw [← ha]
    exact List.drop_left a b
  have hpad : a ++ List.replicate (B_SIZE - B_SIZE) 0 = a := by
    rw [Nat.sub_self]
    simp
  have h0b : ¬ min (if 0 < 0 then B_SIZE - 0 else B_SIZE) b.length = 0 := by
    simp only [if_neg (by omega : ¬ (0:Nat) < 0)]
    rw [hb]
    omega
  have h1b : ¬ b.length < (if 0 < 0 then B_SIZE - 0 else B_SIZE) := by
    simp only [if_neg (by omega : ¬ (0:Nat) < 0)]
    rw [hb]
    omega
  have hminb : min (if 0 < 0 then B_SIZE - 0 else B_SIZE) b.length = B_SIZE := by
    simp only [if_neg (by omega : ¬ (0:Nat) < 0)]
    rw [hb]
    omega
  have htakeb : b.take B_SIZE = b := by
    rw [← hb]
    exact List.take_length b
  have hdropb : b.drop B_SIZE = [] := by
    rw [← hb]
    exact List.drop_length b
  have hpadb : b ++ List.replicate (B_SIZE - B_SIZE) 0 = b := by
    rw [Nat.sub_self]
    simp
  constructor
  · rw [inputBlocks_step _ _ h0 h1, hmin, htake, hpad, hdrop]
    rw [inputBlocks_step _ _ h0b h1b, hminb, htakeb, hpadb, hdropb]
    rw [inputBlocks_zero _ _ (by decide)]
  · rw [tailSpec_step _ _ h0 h1, hmin, hdrop]
    rw [tailSpec_step _ _ h0b h1b, hminb, hdropb]
    rw [tailSpec_zero _ _ (by decide)]

/-- Claim C3 (match soundness, I2): for distinct B_SIZE-byte blocks `a` and
`b` whose fingerprints collide under any hash `H`, ingesting `a` then `b`
stores both at distinct pool ordinals 0 and 1 and the descriptor entry for
`b` is b's own ordinal 1: the colliding candidate is rejected by the
byte-exact comparison against the Pool before any reuse. -/
theorem match_soundness (H : Block → Nat) (a b : Block)
    (ha : a.length = B_SIZE) (hb : b.length = B_SIZE) (hne : a ≠ b) (hcol : H a = H b) :
    ∃ st', input_image H (a ++ b) 0 initState = some (⟨0, B_SIZE, [0, 1]⟩, st')
      ∧ st'.pool = [a, b] := by
  obtain ⟨hblocks, htail⟩ := inputBlocks_two_full a b ha hb
  obtain ⟨st', heq, hpool, hinv'⟩ := input_image_spec H (a ++ b) 0 initState (inv_init H)
  rw [hblocks, htail] at heq
  rw [hblocks] at hpool
  have hd1 : dstep ([] : List Block) a = (0, [a]) := rfl
  have hfi : firstIdx b [a] = none := by
    simp [firstIdx, hne]
  have hd2 : dstep [a] b = (1, [a, b]) := by
    simp only [dstep, hfi]
    rfl
  have hords : dfoldOrds initState.pool [a, b] = [0, 1] := by
    show dfoldOrds [] [a, b] = [0, 1]
    rw [dfoldOrds, hd1, dfoldOrds, hd2, dfoldOrds]
  have hpools : dfoldPool initState.pool [a, b] = [a, b] := by
    show dfoldPool [] [a, b] = [a, b]
    rw [dfoldPool, hd1, dfoldPool, hd2, dfoldPool]
  rw [hords] at heq
  rw [hpools] at hpool
  exact ⟨st', heq, hpool⟩

/-- Witness for claim C3: the all-zeros block and the block differing only
in byte 0, under the constant hash (a guaranteed fingerprint collision). -/
theorem match_soundness_witness :
    ∃ st', input_image H0 (List.replicate 4096 0 ++ (1 :: List.replicate 4095 0)) 0 initState
        = some (⟨0, B_SIZE, [0, 1]⟩, st')
      ∧ st'.pool = [List.replicate 4096 0, 1 :: List.replicate 4095 0] :=
  match_soundness H0 (List.replicate 4096 0) (1 :: List.replicate 4095 0)
    (by rw [List.length_replicate]; rfl) (by rw [List.length_cons, List.length_replicate]; rfl)
    (by decide) rfl

/-- Claim C4 (dedup completeness): under the lookup/file invariant, for any
ingest (a) two occurrences of the same block value in the input emit equal
descriptor ordinals, (b) a block already present in the pool from earlier
ingests emits the ordinal of its first (earliest) pool occurrence, and
(c) the Pool and Index grow by exactly the first occurrences of novel block
values, in input order: later occurrences append nothing. -/
theorem dedup_completeness (H : Block → Nat) (X : List Nat) (skip : Nat) (st : PileState)
    (d : Descriptor) (st' : PileState) (hinv : Inv H st)
    (h : input_image H X skip st = some (d, st')) :
    (∀ (i j : Nat) (b : Block), i < j →
        (inputBlocks X skip)[i]? = some b → (inputBlocks X skip)[j]? = some b →
        d.ords[j]? = d.ords[i]?)
    ∧ (∀ (k : Nat) (b : Block), b ∈ st.pool → (inputBlocks X skip)[k]? = some b →
        d.ords[k]? = firstIdx b st.pool)
    ∧ st'.pool = st.pool ++ novAux st.pool (inputBlocks X skip)
    ∧ st'.hashindex = st.hashindex ++ (novAux st.pool (inputBlocks X skip)).map H := by
  obtain ⟨st'', heq, hpool, hinv'⟩ := input_image_spec H X skip st hinv
  have hds := Option.some.inj (h.symm.trans heq)
  have hd : d = ⟨skip, tailSpec X skip, dfoldOrds st.pool (inputBlocks X skip)⟩ :=
    congrArg Prod.fst hds
  have hst : st' = st'' := congrArg Prod.snd hds
  refine ⟨?_, ?_, ?_, ?_⟩
  · intro i j b hij hi hj
    rw [hd]
    exact dfoldOrds_repeat (inputBlocks X skip) st.pool i j b hij hi hj
  · intro k b hmem hk
    rw [hd]
    exact dfoldOrds_of_mem (inputBlocks X skip) st.pool k b hmem hk
  · rw [hst, hpool, dfoldPool_nov]
  · rw [hst, hinv'.lock, hpool, dfoldPool_nov, List.map_append, hinv.lock]

/-- Witness for claim C4: ingesting two identical zero blocks emits the same
ordinal twice and appends a single pool block. -/
theorem dedup_completeness_witness :
    ∃ d st', input_image H0 (List.replicate 8192 0) 0 initState = some (d, st')
      ∧ d.ords[1]? = d.ords[0]?
      ∧ st'.pool = [List.replicate 4096 0] := by
  have hsplit : List.replicate 8192 (0 : Nat)
      = List.replicate 4096 0 ++ List.replicate 4096 0 := by
    rw [← List.replicate_add]
  have hblocks : inputBlocks (List.replicate 8192 0) 0
      = [List.replicate 4096 0, List.replicate 4096 0] := by
    rw [hsplit]
    exact (inputBlocks_two_full (List.replicate 4096 0) (List.replicate 4096 0)
      (by rw [List.length_replicate]; rfl) (by rw [List.length_replicate]; rfl)).1
  obtain ⟨st', heq, hpool, hinv'⟩ :=
    input_image_spec H0 (List.replicate 8192 0) 0 initState (inv_init H0)
  refine ⟨_, st', heq, ?_, ?_⟩
  · have hc := (dedup_completeness H0 (List.replicate 8192 0) 0 initState _ st'
      (inv_init H0) heq).1 0 1 (List.replicate 4096 0) (by omega)
      (by rw [hblocks]; rfl) (by rw [hblocks]; rfl)
    exact hc
  · have hc := (dedup_completeness H0 (List.replicate 8192 0) 0 initState _ st'
      (inv_init H0) heq).2.2.1
    rw [hc, hblocks]
    show novAux [] [List.replicate 4096 0, List.replicate 4096 0] = _
    rw [novAux, if_neg (List.not_mem_nil _), List.nil_append, novAux,
      if_pos (List.mem_singleton.mpr rfl), novAux]

/-- Claim C5 (lockstep, I1): after any ingest from an invariant-satisfying
state, the Index file holds exactly one record per Pool block, the i-th
record is the fingerprint of the i-th Pool block, and the run appended
exactly the novel blocks to the Pool paired with their fingerprints to the
Index, in input order. -/
theorem lockstep_after_ingest (H : Block → Nat) (X : List Nat) (skip : Nat) (st : PileState)
    (d : Descriptor) (st' : PileState) (hinv : Inv H st)
    (h : input_image H X skip st = some (d, st')) :
    st'.hashindex = st'.pool.map H
    ∧ st'.hashindex.length = st'.pool.length
    ∧ (∀ i : Nat, st'.hashindex[i]? = (st'.pool[i]?).map H)
    ∧ st'.pool = st.pool ++ novAux st.pool (inputBlocks X skip)
    ∧ st'.hashindex = st.hashindex ++ (novAux st.pool (inputBlocks X skip)).map H := by
  obtain ⟨st'', heq, hpool, hinv'⟩ := input_image_spec H X skip st hinv
  have hds := Option.some.inj (h.symm.trans heq)
  have hst : st' = st'' := congrArg Prod.snd hds
  subst hst
  refine ⟨hinv'.lock, ?_, ?_, ?_, ?_⟩
  · rw [hinv'.lock, List.length_map]
  · intro i
    rw [hinv'.lock, List.getElem?_map]
  · rw [hpool, dfoldPool_nov]
  · rw [hinv'.lock, hpool, dfoldPool_nov, List.map_append, hinv.lock]

/-- Witness for claim C5: ingesting two identical zero blocks appends one
block and one matching fingerprint record. -/
theorem lockstep_after_ingest_witness :
    ∃ d st', input_image H0 (List.replicate 8192 0) 0 initState = some (d, st')
      ∧ st'.pool = [List.replicate 4096 0]
      ∧ st'.hashindex = [0] := by
  have hsplit : List.replicate 8192 (0 : Nat)
      = List.replicate 4096 0 ++ List.replicate 4096 0 := by
    rw [← List.replicate_add]
  have hblocks : inputBlocks (List.replicate 8192 0) 0
      = [List.replicate 4096 0, List.replicate 4096 0] := by
    rw [hsplit]
    exact (inputBlocks_two_full (List.replicate 4096 0) (List.replicate 4096 0)
      (by rw [List.length_replicate]; rfl) (by rw [List.length_replicate]; rfl)).1
  have hnov : novAux initState.pool (inputBlocks (List.replicate 8192 0) 0)
      = [List.replicate 4096 0] := by
    rw [hblocks]
    show novAux [] [List.replicate 4096 0, List.replicate 4096 0] = _
    rw [novAux, if_neg (List.not_mem_nil _), List.nil_append, novAux,
      if_pos (List.mem_singleton.mpr rfl), novAux]
  obtain ⟨st', heq, hpool, hinv'⟩ :=
    input_image_spec H0 (List.replicate 8192 0) 0 initState (inv_init H0)
  obtain ⟨hl1, hl2, hl3, hl4, hl5⟩ := lockstep_after_ingest H0 (List.replicate 8192 0) 0
    initState _ st' (inv_init H0) heq
  refine ⟨_, st', heq, ?_, ?_⟩
  · rw [hl4, hnov]
    rfl
  · rw [hl5, hnov]
    rfl

theorem writeChunk_cons_step (pool : List Block) (tail : Nat) (eof : Bool) (o : Nat)
    (rest : List Nat) (skip : Nat) (data : Block)
    (hdata : read_db_block pool o = some data) (hne : ¬(rest = [] ∧ eof = true)) :
    writeChunk pool tail eof (o :: rest) skip
      = if 0 < skip then
          match writeChunk pool tail eof rest 0 with
          | none => none
          | some (ws, s) => some (data.take (B_SIZE - skip) ++ ws, s)
        else
          match writeChunk pool tail eof rest skip with
          | none => none
          | some (ws, s) => some (data ++ ws, s) := by
  conv_lhs => rw [writeChunk]
  rw [hdata]
  simp only []
  rw [if_neg hne]

theorem writeChunk_last (pool : List Block) (tail : Nat) (o : Nat) (skip : Nat) (data : Block)
    (hdata : read_db_block pool o = some data) :
    writeChunk pool tail true [o] skip = some (data.take tail, skip) := by
  conv_lhs => rw [writeChunk]
  rw [hdata]
  simp only []
  rw [if_pos (And.intro trivial trivial)]

theorem writeChunk_noeof (pool : List Block) (tail : Nat)
    (hpool : ∀ bb ∈ pool, bb.length = B_SIZE) :
    ∀ (c : List Nat) (skip : Nat), (∀ o ∈ c, o < pool.length) → skip ≤ B_SIZE →
    ∃ w s, writeChunk pool tail false c skip = some (w, s)
      ∧ w.length = c.length * B_SIZE - skip
      ∧ (c = [] → s = skip) ∧ (c ≠ [] → s = 0) := by
  intro c
  induction c with
  | nil =>
    intro skip ho hs
    exact ⟨[], skip, rfl, by simp, fun _ => rfl, fun hc => absurd rfl hc⟩
  | cons o rest ih =>
    intro skip ho hs
    have hov : o < pool.length := ho o (List.mem_cons_self o rest)
    have hdata : read_db_block pool o = some pool[o] := by
      rw [read_db_block]
      exact List.getElem?_eq_getElem hov
    have hdlen : (pool[o]).length = B_SIZE := hpool _ (pool.getElem_mem hov)
    have hB : B_SIZE = 4096 := rfl
    have hstep := writeChunk_cons_step pool tail false o rest skip pool[o] hdata (by simp)
    by_cases hskip : 0 < skip
    · obtain ⟨w1, s1, hw1, hl1, hnil1, hne1⟩ := ih 0
        (fun x hx => ho x (List.mem_cons_of_mem o hx)) (by omega)
      refine ⟨pool[o].take (B_SIZE - skip) ++ w1, s1, ?_, ?_, ?_, ?_⟩
      · rw [hstep, if_pos hskip, hw1]
      · rw [List.length_append, List.length_take, hdlen, hl1]
        simp only [List.length_cons]
        rw [hB] at hs ⊢
        omega
      · intro hc
        simp at hc
      · intro hc
        rcases rest with _ | ⟨r, rest2⟩
        · exact hnil1 rfl
        · exact hne1 (by simp)
    · obtain ⟨w1, s1, hw1, hl1, hnil1, hne1⟩ := ih skip
        (fun x hx => ho x (List.mem_cons_of_mem o hx)) hs
      refine ⟨pool[o] ++ w1, s1, ?_, ?_, ?_, ?_⟩
      · rw [hstep, if_neg hskip, hw1]
      · rw [List.length_append, hdlen, hl1]
        simp only [List.length_cons]
        rw [hB] at hs ⊢
        omega
      · intro hc
        simp at hc
      · intro hc
        rcases rest with _ | ⟨r, rest2⟩
        · rw [hnil1 rfl]
          omega
        · exact hne1 (by simp)

theorem writeChunk_eof (pool : List Block) (tail : Nat)
    (hpool : ∀ bb ∈ pool, bb.length = B_SIZE) (htail : tail ≤ B_SIZE) :
    ∀ (c : List Nat) (skip : Nat), c ≠ [] → (∀ o ∈ c, o < pool.length) → skip ≤ B_SIZE →
    ∃ w s, writeChunk pool tail true c skip = some (w, s)
      ∧ w.length = (if c.length = 1 then tail else (c.length - 1) * B_SIZE - skip + tail) := by
  intro c
  induction c with
  | nil => intro skip hc; exact absurd rfl hc
  | cons o rest ih =>
    intro skip _ ho hs
    have hov : o < pool.length := ho o (List.mem_cons_self o rest)
    have hdata : read_db_block pool o = some pool[o] := by
      rw [read_db_block]
      exact List.getElem?_eq_getElem hov
    have hdlen : (pool[o]).length = B_SIZE := hpool _ (pool.getElem_mem hov)
    have hB : B_SIZE = 4096 := rfl
    rcases rest with _ | ⟨r, rest2⟩
    · refine ⟨pool[o].take tail, skip, writeChunk_last pool tail o skip pool[o] hdata, ?_⟩
      rw [List.length_take, hdlen]
      simp
      omega
    · have hstep := writeChunk_cons_step pool tail true o (r :: rest2) skip pool[o] hdata
        (by simp)
      obtain ⟨w1, s1, hw1, hl1⟩ := ih (if 0 < skip then 0 else skip) (by simp)
        (fun x hx => ho x (List.mem_cons_of_mem o hx))
        (by by_cases h : 0 < skip <;> simp [h] <;> omega)
      by_cases hskip : 0 < skip
      · rw [if_pos hskip] at hw1 hl1
        refine ⟨pool[o].take (B_SIZE - skip) ++ w1, s1, ?_, ?_⟩
        · rw [hstep, if_pos hskip, hw1]
        · rw [List.length_append, List.length_take, hdlen, hl1]
          simp only [List.length_cons]
          rw [hB] at hs ⊢
          by_cases hr2 : rest2.length = 0
          · rw [if_pos (by omega), if_neg (by omega)]
            omega
          · rw [if_neg (by omega), if_neg (by omega)]
            omega
      · rw [if_neg hskip] at hw1 hl1
        refine ⟨pool[o] ++ w1, s1, ?_, ?_⟩
        · rw [hstep, if_neg hskip, hw1]
        · rw [List.length_append, hdlen, hl1]
          simp only [List.length_cons]
          rw [hB] at hs ⊢
          by_cases hr2 : rest2.length = 0
          · rw [if_pos (by omega), if_neg (by omega)]
            omega
          · rw [if_neg (by omega), if_neg (by omega)]
            omega

theorem reconLoop_len (pool : List Block) (tail : Nat)
    (hpool : ∀ bb ∈ pool, bb.length = B_SIZE) (htail : tail ≤ B_SIZE) :
    ∀ (n : Nat) (ords : List Nat) (skip : Nat), ords.length ≤ n →
      (∀ o ∈ ords, o < pool.length) → skip ≤ B_SIZE →
      ∃ w, reconLoop pool tail (chunks1024 ords) skip = some w
        ∧ w.length = (if ords.length = 0 then 0
            else if ords.length % 1024 = 0 then ords.length * B_SIZE - skip
            else if ords.length = 1 then tail
            else (ords.length - 1) * B_SIZE + tail - skip) := by
  have hB : B_SIZE = 4096 := rfl
  intro n
  induction n with
  | zero =>
    intro ords skip hn ho hs
    have : ords = [] := List.length_eq_zero.mp (by omega)
    subst this
    exact ⟨[], rfl, by simp⟩
  | succ n ih =>
    intro ords skip hn ho hs
    by_cases hords : ords = []
    · subst hords
      exact ⟨[], rfl, by simp⟩
    · rw [chunks1024_cons ords hords]
      have hpos : 0 < ords.length := List.length_pos.mpr hords
      by_cases hle : ords.length ≤ 1024
      · have htake : ords.take 1024 = ords := List.take_of_length_le hle
        have hdrop : ords.drop 1024 = [] := List.drop_eq_nil_of_le hle
        rw [htake, hdrop, chunks1024_nil]
        by_cases hlt : ords.length < 1024
        · have hdec : decide (ords.length < 1024) = true := decide_eq_true hlt
          obtain ⟨w1, s1, hw1, hl1⟩ := writeChunk_eof pool tail hpool htail ords skip hords ho hs
          refine ⟨w1, ?_, ?_⟩
          · simp only [reconLoop, hdec, hw1]
            rw [List.append_nil]
          · rw [hl1]
            rw [hB] at hs ⊢
            by_cases h1 : ords.length = 1
            · rw [if_pos h1, if_neg (by omega), if_neg (by omega), if_pos h1]
            · rw [if_neg h1, if_neg (by omega), if_neg (by omega), if_neg h1]
              omega
        · have hlen1024 : ords.length = 1024 := by omega
          have hdec : decide (ords.length < 1024) = false := decide_eq_false hlt
          obtain ⟨w1, s1, hw1, hl1, _, _⟩ := writeChunk_noeof pool tail hpool ords skip ho hs
          refine ⟨w1, ?_, ?_⟩
          · simp only [reconLoop, hdec, hw1]
            rw [List.append_nil]
          · rw [hl1, hlen1024]
            rw [hB] at hs ⊢
            rw [if_neg (by omega), if_pos (by omega)]
      · have htklen : (ords.take 1024).length = 1024 := by
          rw [List.length_take]
          omega
        have htkne : ords.take 1024 ≠ [] := by
          intro hcc
          rw [hcc] at htklen
          simp at htklen
        have hdec : decide ((ords.take 1024).length < 1024) = false := by
          rw [htklen]
          decide
        obtain ⟨w1, s1, hw1, hl1, _, hne1⟩ := writeChunk_noeof pool tail hpool
          (ords.take 1024) skip (fun x hx => ho x (List.take_subset 1024 ords hx)) hs
        have hs1 : s1 = 0 := hne1 htkne
        subst hs1
        have hdl : (ords.drop 1024).length = ords.length - 1024 := List.length_drop 1024 ords
        obtain ⟨w2, hw2, hl2⟩ := ih (ords.drop 1024) 0
          (by omega) (fun x hx => ho x (List.drop_subset 1024 ords hx)) (by omega)
        refine ⟨w1 ++ w2, ?_, ?_⟩
        · simp only [reconLoop, hdec, hw1, hw2]
        · rw [List.length_append, hl1, hl2, htklen, hdl]
          rw [hB] at hs ⊢
          have hgt : 1024 < ords.length := by omega
          have hd0 : ¬(ords.length - 1024 = 0) := by omega
          have ht0 : ¬(ords.length = 0) := by omega
          have ht1 : ¬(ords.length = 1) := by omega
          rw [if_neg hd0, if_neg ht0]
          by_cases hz : (ords.length - 1024) % 1024 = 0
          · have hz2 : ords.length % 1024 = 0 := by omega
            rw [if_pos hz, if_pos hz2]
            omega
          · have hz2 : ¬(ords.length % 1024 = 0) := by omega
            rw [if_neg hz, if_neg hz2, if_neg ht1]
            by_cases h1 : ords.length - 1024 = 1
            · rw [if_pos h1]
              omega
            · rw [if_neg h1]
              omega

theorem reconLoop_single (pool : List Block) (tail : Nat) (c : List Nat) (skip : Nat)
    (w : List Nat) (s : Nat) (hlt : c.length < 1024)
    (hwc : writeChunk pool tail true c skip = some (w, s)) :
    reconLoop pool tail [c] skip = some w := by
  have hdec : decide (c.length < 1024) = true := decide_eq_true hlt
  simp only [reconLoop, hdec, hwc]
  rw [List.append_nil]

theorem reconLoop_single_full (pool : List Block) (tail : Nat) (c : List Nat) (skip : Nat)
    (w : List Nat) (s : Nat) (hge : ¬ c.length < 1024)
    (hwc : writeChunk pool tail false c skip = some (w, s)) :
    reconLoop pool tail [c] skip = some w := by
  have hdec : decide (c.length < 1024) = false := decide_eq_false hge
  simp only [reconLoop, hdec, hwc]
  rw [List.append_nil]

/-- Claim C6 counterexample: a descriptor with a single ordinal and
head_skip 512, tail_bytes 100 reconstructs to 100 bytes (the single ordinal
takes the final-block path, which writes tail_bytes and never subtracts
head_skip), while the claimed formula (n-1)*B_SIZE + tail_bytes - head_skip
gives 0 at n = 1. -/
theorem reconstruct_length_formula_refuted :
    (output_original ⟨IPIL, 512, 100, [0]⟩ [List.replicate 4096 0]).map List.length = some 100
    ∧ (100 : Nat) ≠ (1 - 1) * B_SIZE + 100 - 512 := by
  have hchunks : chunks1024 [0] = [[0]] := by
    rw [chunks1024_cons [0] (by simp)]
    rfl
  have hdata : read_db_block [List.replicate 4096 (0 : Nat)] 0
      = some (List.replicate 4096 0) := rfl
  have hwc := writeChunk_last [List.replicate 4096 0] 100 0 512 (List.replicate 4096 0) hdata
  have hrl := reconLoop_single [List.replicate 4096 0] 100 [0] 512 _ _ (by decide) hwc
  have hout : output_original ⟨IPIL, 512, 100, [0]⟩ [List.replicate 4096 0]
      = some ((List.replicate 4096 (0 : Nat)).take 100) := by
    rw [output_original]
    rw [if_neg (by simp), if_neg (by decide), if_neg (by decide)]
    show reconLoop _ 100 (chunks1024 [0]) 512 = _
    rw [hchunks, hrl]
  constructor
  · rw [hout, List.take_replicate]
    rw [show min 100 4096 = 100 from by decide]
    rfl
  · decide

/-- Claim C6 (amended): for a valid descriptor whose ordinal count n is at
least 2 and not a multiple of 1024 (the batch size B_SIZE/4, at which the
feof-based final-block detection misfires), reconstruct writes exactly
(n-1)*B_SIZE + tail_bytes - head_skip bytes; for n = 1 it writes exactly
tail_bytes bytes, head_skip not being subtracted. -/
theorem reconstruct_output_length (pool : List Block) (skip tail : Nat) (ords : List Nat)
    (hpool : ∀ bb ∈ pool, bb.length = B_SIZE) (hords : ∀ o ∈ ords, o < pool.length)
    (hskip : skip < B_SIZE) (htail0 : 0 < tail) (htail : tail ≤ B_SIZE) :
    (2 ≤ ords.length → ords.length % 1024 ≠ 0 →
      ∃ w, output_original ⟨IPIL, skip, tail, ords⟩ pool = some w
        ∧ w.length = (ords.length - 1) * B_SIZE + tail - skip)
    ∧ (ords.length = 1 →
      ∃ w, output_original ⟨IPIL, skip, tail, ords⟩ pool = some w ∧ w.length = tail) := by
  obtain ⟨w, hw, hlen⟩ := reconLoop_len pool tail hpool htail ords.length ords skip
    (le_refl _) hords (by omega)
  have hoo : output_original ⟨IPIL, skip, tail, ords⟩ pool = some w := by
    rw [output_original]
    rw [if_neg (by simp), if_neg (show ¬ B_SIZE ≤ skip from by omega),
      if_neg (show ¬ B_SIZE < tail from by omega)]
    exact hw
  constructor
  · intro h2 hmod
    refine ⟨w, hoo, ?_⟩
    rw [hlen]
    rw [if_neg (by omega), if_neg hmod, if_neg (by omega)]
  · intro h1
    refine ⟨w, hoo, ?_⟩
    rw [hlen]
    rw [if_neg (by omega), if_neg (by rw [h1]; decide), if_pos h1]

/-- Witness for claim C6: a two-ordinal descriptor with head_skip 512 and
tail_bytes 100 reconstructs to (2-1)*4096 + 100 - 512 = 3684 bytes. -/
theorem reconstruct_output_length_witness :
    ∃ w, output_original ⟨IPIL, 512, 100, [0, 0]⟩ [List.replicate 4096 0] = some w
      ∧ w.length = 3684 := by
  obtain ⟨w, hw, hl⟩ := (reconstruct_output_length [List.replicate 4096 0] 512 100 [0, 0]
    (by intro bb hbb; rw [List.mem_singleton] at hbb; rw [hbb, List.length_replicate]; rfl)
    (by decide) (by decide) (by decide) (by decide)).1 (by decide) (by decide)
  refine ⟨w, hw, ?_⟩
  rw [hl]
  decide

/-- Claim C10 counterexample: reconstruct does accept tail_bytes = 0, but
for a descriptor of exactly 1024 ordinals (one full batch, feof not yet set)
it writes the full 4096 bytes of the final ordinal's block instead of zero
bytes: the total is 1024*B_SIZE, not 1023*B_SIZE. -/
theorem zero_tail_full_batch_refuted :
    (∃ w, output_original ⟨IPIL, 0, 0, List.replicate 1024 0⟩ [List.replicate 4096 0]
        = some w ∧ w.length = 1024 * B_SIZE)
    ∧ (1024 * B_SIZE : Nat) ≠ 1023 * B_SIZE := by
  have hne : List.replicate 1024 (0 : Nat) ≠ [] := by
    intro hcc
    have := congrArg List.length hcc
    rw [List.length_replicate] at this
    simp at this
  have hchunks : chunks1024 (List.replicate 1024 0) = [List.replicate 1024 0] := by
    rw [chunks1024_cons _ hne, List.take_replicate]
    rw [show min 1024 1024 = 1024 from by decide]
    rw [List.drop_replicate]
    rw [show (1024 - 1024 : Nat) = 0 from by decide]
    rfl
  have hords : ∀ o ∈ List.replicate 1024 (0 : Nat), o < 1 := by
    intro o ho
    rw [List.eq_of_mem_replicate ho]
    omega
  obtain ⟨w1, s1, hw1, hl1, _, _⟩ := writeChunk_noeof [List.replicate 4096 0] 0
    (by intro bb hbb; rw [List.mem_singleton] at hbb; rw [hbb, List.length_replicate]; rfl)
    (List.replicate 1024 0) 0
    (by intro o ho; rw [List.eq_of_mem_replicate ho]; decide) (by omega)
  have hrl := reconLoop_single_full [List.replicate 4096 0] 0 (List.replicate 1024 0) 0 w1 s1
    (by rw [List.length_replicate]; decide) hw1
  refine ⟨⟨w1, ?_, ?_⟩, by decide⟩
  · rw [output_original]
    rw [if_neg (by simp), if_neg (by decide), if_neg (by decide)]
    show reconLoop _ 0 (chunks1024 (List.replicate 1024 0)) 0 = _
    rw [hchunks, hrl]
  · rw [hl1, List.length_replicate, Nat.sub_zero]

/-- Claim C10 (amended): reconstruct accepts a descriptor whose tail_bytes
field is 0 (header validation rejects only a bad signature, head_skip ≥
B_SIZE and tail_bytes > B_SIZE), and writes zero bytes for the final
ordinal's block whenever the ordinal count is not a positive multiple of
1024: the total output is (n-1)*B_SIZE - head_skip bytes. -/
theorem zero_tail_accepted_writes_zero (pool : List Block) (skip : Nat) (ords : List Nat)
    (hpool : ∀ bb ∈ pool, bb.length = B_SIZE) (hords : ∀ o ∈ ords, o < pool.length)
    (hskip : skip < B_SIZE) (hne : ords ≠ []) (hmod : ords.length % 1024 ≠ 0) :
    ∃ w, output_original ⟨IPIL, skip, 0, ords⟩ pool = some w
      ∧ w.length = (ords.length - 1) * B_SIZE - skip := by
  have hB : B_SIZE = 4096 := rfl
  obtain ⟨w, hw, hlen⟩ := reconLoop_len pool 0 hpool (by omega) ords.length ords skip
    (le_refl _) hords (by omega)
  have hpos : 0 < ords.length := List.length_pos.mpr hne
  refine ⟨w, ?_, ?_⟩
  · rw [output_original]
    rw [if_neg (by simp), if_neg (show ¬ B_SIZE ≤ skip from by omega),
      if_neg (show ¬ B_SIZE < 0 from by omega)]
    exact hw
  · rw [hlen]
    rw [if_neg (by omega), if_neg hmod]
    by_cases h1 : ords.length = 1
    · rw [if_pos h1, h1]
      rw [hB]
      omega
    · rw [if_neg h1]
      rw [hB]
      omega

/-- Witness for claim C10: a single-ordinal descriptor with tail_bytes 0 is
accepted and reconstructs to zero bytes. -/
theorem zero_tail_accepted_writes_zero_witness :
    ∃ w, output_original ⟨IPIL, 7, 0, [0]⟩ [List.replicate 4096 0] = some w
      ∧ w.length = 0 := by
  obtain ⟨w, hw, hl⟩ := zero_tail_accepted_writes_zero [List.replicate 4096 0] 7 [0]
    (by intro bb hbb; rw [List.mem_singleton] at hbb; rw [hbb, List.length_replicate]; rfl)
    (by decide) (by decide) (by decide) (by decide)
  exact ⟨w, hw, by rw [hl]; decide⟩

/-- Claim C2 counterexample: for a two-ordinal descriptor with head_skip 1
against a pool whose block 0 starts with byte 9, the reconstructed stream
begins with byte 9 (the code writes the FIRST B_SIZE - 1 bytes of the
block), not with byte 0 as writing bytes 1..B_SIZE of the block would
produce. -/
theorem reconstruct_head_skip_writes_suffix_refuted :
    output_original ⟨IPIL, 1, 4096, [0, 1]⟩
        [9 :: List.replicate 4095 0, List.replicate 4096 0]
      ≠ some (List.drop 1 (9 :: List.replicate 4095 0) ++ List.replicate 4096 0) := by
  have hd0 : read_db_block [9 :: List.replicate 4095 0, List.replicate 4096 0] 0
      = some (9 :: List.replicate 4095 0) := rfl
  have hd1 : read_db_block [9 :: List.replicate 4095 0, List.replicate 4096 0] 1
      = some (List.replicate 4096 0) := rfl
  have hwlast := writeChunk_last [9 :: List.replicate 4095 0, List.replicate 4096 0]
    4096 1 0 (List.replicate 4096 0) hd1
  have hstep := writeChunk_cons_step [9 :: List.replicate 4095 0, List.replicate 4096 0]
    4096 true 0 [1] 1 (9 :: List.replicate 4095 0) hd0 (by simp)
  rw [if_pos (by omega : (0:Nat) < 1), hwlast] at hstep
  have hchunks : chunks1024 [0, 1] = [[0, 1]] := by
    rw [chunks1024_cons _ (by simp)]
    rfl
  have hrl := reconLoop_single [9 :: List.replicate 4095 0, List.replicate 4096 0]
    4096 [0, 1] 1 _ _ (by decide) hstep
  have hout : output_original ⟨IPIL, 1, 4096, [0, 1]⟩
      [9 :: List.replicate 4095 0, List.replicate 4096 0]
      = some ((9 :: List.replicate 4095 0).take (B_SIZE - 1)
          ++ (List.replicate 4096 (0 : Nat)).take 4096) := by
    rw [output_original]
    rw [if_neg (by simp), if_neg (by decide), if_neg (by decide)]
    show reconLoop _ 4096 (chunks1024 [0, 1]) 1 = _
    rw [hchunks, hrl]
  rw [hout]
  intro hcontra
  have hl := Option.some.inj hcontra
  have heads := congrArg List.head? hl
  have hleft : ((9 :: List.replicate 4095 (0 : Nat)).take (B_SIZE - 1)
      ++ (List.replicate 4096 (0 : Nat)).take 4096).head? = some 9 := rfl
  have hright : (List.drop 1 (9 :: List.replicate 4095 (0 : Nat))
      ++ List.replicate 4096 0).head? = some 0 := rfl
  rw [hleft, hright] at heads
  exact absurd heads (by decide)

/-- Claim C2 (amended): when head_skip > 0 (possible only before the first
ordinal has been written, and that ordinal is not the final one), the bytes
written for that block are the FIRST B_SIZE - head_skip bytes of the pool
block (bytes 0..B_SIZE-head_skip; the last head_skip bytes are omitted),
after which head_skip is set to 0 for the remaining ordinals. -/
theorem reconstruct_head_skip_writes_first_bytes (pool : List Block) (tail : Nat) (eof : Bool)
    (o : Nat) (rest : List Nat) (skip : Nat) (data : Block)
    (hskip : 0 < skip) (hnf : ¬(rest = [] ∧ eof = true))
    (hdata : read_db_block pool o = some data) :
    writeChunk pool tail eof (o :: rest) skip
      = (writeChunk pool tail eof rest 0).map
          (fun p => (data.take (B_SIZE - skip) ++ p.1, p.2)) := by
  rw [writeChunk_cons_step pool tail eof o rest skip data hdata hnf, if_pos hskip]
  cases h : writeChunk pool tail eof rest 0 with
  | none => simp
  | some p =>
    obtain ⟨ws, s⟩ := p
    simp

/-- Witness for claim C2: the head_skip branch at skip 1 prefixes the first
4095 bytes of pool block 0 and recurses with skip 0. -/
theorem reconstruct_head_skip_writes_first_bytes_witness :
    writeChunk [9 :: List.replicate 4095 0, List.replicate 4096 0] 4096 true [0, 1] 1
      = (writeChunk [9 :: List.replicate 4095 0, List.replicate 4096 0] 4096 true [1] 0).map
          (fun p => ((9 :: List.replicate 4095 0).take (B_SIZE - 1) ++ p.1, p.2)) :=
  reconstruct_head_skip_writes_first_bytes
    [9 :: List.replicate 4095 0, List.replicate 4096 0] 4096 true 0 [1] 1
    (9 :: List.replicate 4095 0) (by omega) (by simp) rfl

end Imagepile
